import Mathlib

/-!
# Verification of the cyclic_list doubly-linked list crate

This file gives a shallow embedding of the `cyclic_list` crate (a sentinel-based
cyclic doubly-linked list) and proves properties of its operations.

## Encoding of the ring

A list with `n` elements is represented by the Lean list `l : List α` of its
element values in ring order.  Ring nodes are identified by their position:
node `k` (for `k < n`) is the node currently holding the `k`-th element, and
position `n` denotes the ghost (sentinel) node.  Following a `next` pointer maps
position `c` to `(c + 1) % (n + 1)` and `prev` maps `c` to `(c + n) % (n + 1)`,
which is exactly the ring topology of the source: the ghost's `next` is the
front node and the front node's `prev` is the ghost.

A `CursorMut` is a triple of the element list, the position of its `current`
node, and its tracked `index` field (the `length` feature configuration).
Operations that relink nodes are translated to this positional encoding: for
example `insert` attaches a fresh node immediately before `current`, so the
(unchanged) `current` node ends up at position `cur + 1`.
-/

set_option maxHeartbeats 1000000

namespace CyclicList

universe u

variable {α : Type u}

/-! ## Sort engine (src/list/algorithms/sort.rs)

The sort functions operate on a half-open range of ring nodes; in the
embedding a range is the Lean list of its elements in order.  `merge_sort`
is only ever applied to the whole list. -/

/-- The relocation step of `insertion_sort_range`: scan `sorted` from the
front while `!less(to_sort, sorted)` and move the node `to_sort` right before
the first position whose element is greater (`move_node`).  Reaching the end
of the scan (the `sorted == to_sort` bound) appends at the back. -/
def insort (less : α → α → Bool) (x : α) : List α → List α
  | [] => [x]
  | s :: rest => if less x s then x :: s :: rest else s :: insort less x rest

/-- The outer loop of `insertion_sort_range`.  `done` is the already sorted
prefix `start..to_sort` (always nonempty, its last node is `sorted_back`) and
`rest` is `to_sort..end`.  The first inner `while` of the source advances
over nodes that are not less than `sorted_back` (leaving them at the back of
the sorted prefix); otherwise the node is relocated by the `insort` scan. -/
def isortLoop (less : α → α → Bool) : List α → List α → List α
  | done, [] => done
  | done, x :: rs =>
    match done.getLast? with
    | some b =>
      if less x b then isortLoop less (insort less x done) rs
      else isortLoop less (done ++ [x]) rs
    | none => isortLoop less (insort less x done) rs

/-- `insertion_sort_range(start, end, less)`: the range starts with
`(sorted_back, to_sort) = (start, start.next)`, i.e. the sorted prefix is
initially the single node `start`. -/
def insertionSortRange (less : α → α → Bool) : List α → List α
  | [] => []
  | x :: xs => isortLoop less [x] xs

/-- The `merged` scan of `merge_range`: starting from the current `merged`
node, advance while `!less(to_merge, merged)`; return the offset and element
of the first node whose element is greater than the node to merge, or `none`
if the scan reaches `to_merge` (the end of the merged region). -/
def findInsert (less : α → α → Bool) (x : α) : List α → Option (ℕ × α)
  | [] => none
  | s :: rest =>
    if less x s then some (0, s)
    else (findInsert less x rest).map fun p => (p.1 + 1, p.2)

/-- The loop of `merge_range`.  `processed` is the merged region
`start..to_merge`, `pos` the index of the persistent `merged` scan pointer
inside it, `mb` the element of `merged_back` (the last node of the original
left half, fixed for the whole loop) and `right` the unmerged region
`to_merge..end`.

One iteration: if the element to merge is not less than `mb` the range is
fully sorted and the loop stops; otherwise the `merged` pointer advances to
the first position whose element is greater (`findInsert`), the maximal run
of consecutive unmerged nodes less than that element is identified, and
`move_nodes` relocates the whole run right before the `merged` node (which
afterwards sits at index `pos + dj + run.length`). -/
def mergeLoop (less : α → α → Bool) (mb : α) (processed : List α) (pos : ℕ)
    (right : List α) : List α :=
  match right with
  | [] => processed
  | x :: rs =>
    if less x mb then
      match findInsert less x (processed.drop pos) with
      | none => processed ++ right
      | some (dj, s) =>
        let run := x :: rs.takeWhile fun e => less e s
        mergeLoop less mb
          (processed.take (pos + dj) ++ run ++ processed.drop (pos + dj))
          (pos + dj + run.length)
          (rs.dropWhile fun e => less e s)
    else processed ++ right
termination_by right.length
decreasing_by
  simp only [List.length_cons]
  exact Nat.lt_succ_of_le (List.Sublist.length_le (List.dropWhile_sublist _))

/-- `merge_range(start, mid, end, less)`: `merged_back` is `mid.prev`, the
last node of the left half, and the scan pointer `merged` starts at `start`. -/
def mergeRange (less : α → α → Bool) (left right : List α) : List α :=
  match left.getLast? with
  | none => left ++ right
  | some mb => mergeLoop less mb left 0 right

/-- `merge_sort_range(start, end, less)`: `mid_of_range` walks a slow/fast
pointer pair, yielding the node at offset `len / 2` together with `len`;
ranges of at most 8 nodes (`INSERTION_SORT_THRESHOLD`) are insertion-sorted,
longer ones are split at `mid`, the halves of at least two nodes recursively
sorted, and the two sorted halves merged. -/
def msortRange (less : α → α → Bool) (l : List α) : List α :=
  if l.length ≤ 8 then insertionSortRange less l
  else
    let m := l.length / 2
    let left := if 2 ≤ (l.take m).length then msortRange less (l.take m) else l.take m
    let right := if 2 ≤ (l.drop m).length then msortRange less (l.drop m) else l.drop m
    if !left.isEmpty && !right.isEmpty then mergeRange less left right else left ++ right
termination_by l.length
decreasing_by
  · simp only [List.length_take]
    omega
  · simp only [List.length_drop]
    omega

/-- `merge_sort(list, less)` (the `length` configuration): lists of fewer than
two elements are left alone, lists of at most 8 elements are insertion-sorted
and longer lists merge-sorted.  (The length-untracked configuration calls
`merge_sort_range` for every nonempty list, which dispatches identically.) -/
def mergeSort (less : α → α → Bool) (l : List α) : List α :=
  if l.length < 2 then l
  else if l.length ≤ 8 then insertionSortRange less l
  else msortRange less l

/-! ## Ring positions and cursors (src/list/mod.rs, src/list/cursor.rs)

Positions: `0, …, n-1` are the element nodes in order, `n` is the ghost node.
`nextPos`/`prevPos` are the `next`/`prev` pointers of the ring. -/

/-- Following a node's `next` pointer in a ring of `n` elements. -/
def nextPos (n cur : ℕ) : ℕ := (cur + 1) % (n + 1)

/-- Following a node's `prev` pointer in a ring of `n` elements. -/
def prevPos (n cur : ℕ) : ℕ := (cur + n) % (n + 1)

/-- `List::front_node` is `ghost.next`. -/
def frontPos (n : ℕ) : ℕ := nextPos n n

/-- A `CursorMut` (and likewise a `Cursor`) in the `length` configuration:
the underlying list of elements, the position of the `current` node, and the
tracked `index` field. -/
structure MCur (α : Type u) where
  l : List α
  cur : ℕ
  idx : ℕ
deriving DecidableEq, Repr

namespace MCur

/-- `is_empty`: `front_node == ghost_node`. -/
def ringEmpty (st : MCur α) : Prop := frontPos st.l.length = st.l.length

instance (st : MCur α) : Decidable st.ringEmpty := by
  unfold ringEmpty; infer_instance

/-- `is_ghost_node`: `current == ghost_node`. -/
def isGhost (st : MCur α) : Prop := st.cur = st.l.length

instance (st : MCur α) : Decidable st.isGhost := by
  unfold isGhost; infer_instance

/-- `is_front_node`: `prev_node() == ghost_node`. -/
def isFront (st : MCur α) : Prop := prevPos st.l.length st.cur = st.l.length

instance (st : MCur α) : Decidable st.isFront := by
  unfold isFront; infer_instance

/-- `current()`: `None` at the ghost node, otherwise the current element. -/
def current (st : MCur α) : Option α :=
  if st.isGhost then none else st.l[st.cur]?

/-- `previous()`: `None` at the front node, otherwise the element of
`prev_node()`. -/
def previous (st : MCur α) : Option α :=
  if st.isFront then none else st.l[prevPos st.l.length st.cur]?

/-- `move_next_cyclic`. -/
def moveNextCyclic (st : MCur α) : MCur α :=
  if st.ringEmpty then st
  else
    ⟨st.l, nextPos st.l.length st.cur, if st.isGhost then 0 else st.idx + 1⟩

/-- `move_prev_cyclic`. -/
def movePrevCyclic (st : MCur α) : MCur α :=
  if st.ringEmpty then st
  else
    ⟨st.l, prevPos st.l.length st.cur,
      if st.isFront then st.l.length else st.idx - 1⟩

/-- `move_next`; the boolean is `true` on `Ok`. -/
def moveNext (st : MCur α) : MCur α × Bool :=
  if ¬st.ringEmpty ∧ ¬st.isGhost then (st.moveNextCyclic, true) else (st, false)

/-- `move_prev`; the boolean is `true` on `Ok`. -/
def movePrev (st : MCur α) : MCur α × Bool :=
  if ¬st.ringEmpty ∧ ¬st.isFront then (st.movePrevCyclic, true) else (st, false)

/-- The `try_for_each` loop of `seek_forward`: `done` counts the successful
steps, reported on the first failure. -/
def seekForwardAux : MCur α → ℕ → ℕ → MCur α × Option ℕ
  | st, _, 0 => (st, none)
  | st, done, k + 1 =>
    let r := st.moveNext
    if r.2 then seekForwardAux r.1 (done + 1) k else (r.1, some done)

/-- `seek_forward(steps)`; `some i` is `Err(i)`. -/
def seekForward (st : MCur α) (steps : ℕ) : MCur α × Option ℕ :=
  seekForwardAux st 0 steps

/-- The `try_for_each` loop of `seek_backward`. -/
def seekBackwardAux : MCur α → ℕ → ℕ → MCur α × Option ℕ
  | st, _, 0 => (st, none)
  | st, done, k + 1 =>
    let r := st.movePrev
    if r.2 then seekBackwardAux r.1 (done + 1) k else (r.1, some done)

/-- `seek_backward(steps)`; `some i` is `Err(i)`. -/
def seekBackward (st : MCur α) (steps : ℕ) : MCur α × Option ℕ :=
  seekBackwardAux st 0 steps

/-- `move_to_start`: index 0, current = front node. -/
def moveToStart (st : MCur α) : MCur α := ⟨st.l, frontPos st.l.length, 0⟩

/-- `move_to_end`: index = len, current = ghost node. -/
def moveToEnd (st : MCur α) : MCur α := ⟨st.l, st.l.length, st.l.length⟩

/-- `seek_forward_fast(steps)`: unchecked forward walk (`index` grows by
`steps`, `current` follows `next` pointers `steps` times). -/
def seekForwardFast (st : MCur α) (steps : ℕ) : MCur α :=
  ⟨st.l, (nextPos st.l.length)^[steps] st.cur, st.idx + steps⟩

/-- `seek_backward_fast(steps)`: unchecked backward walk (`index` shrinks by
`steps`, saturating like `usize::saturating_sub`). -/
def seekBackwardFast (st : MCur α) (steps : ℕ) : MCur α :=
  ⟨st.l, (prevPos st.l.length)^[steps] st.cur, st.idx - steps⟩

/-- `try_seek_to(target)` in the `length` configuration; `some t` is
`Err(t)`.  The four walking strategies of the source are kept verbatim. -/
def trySeekTo (st : MCur α) (target : ℕ) : MCur α × Option ℕ :=
  if target = st.idx then (st, none)
  else if st.l.length < target then (st, some target)
  else if target = 0 then (st.moveToStart, none)
  else if target = st.l.length then (st.moveToEnd, none)
  else if st.idx < target then
    if target - st.idx ≤ st.l.length - target then
      (st.seekForwardFast (target - st.idx), none)
    else (st.moveToEnd.seekBackwardFast (st.l.length - target), none)
  else
    if st.idx - target ≤ target then (st.seekBackwardFast (st.idx - target), none)
    else (st.moveToStart.seekForwardFast target, none)

/-- `CursorMut::insert(item)`: `insert_before(current, item)` attaches a new
node between `current.prev` and `current`, then `index += 1`.  The `current`
node is untouched, so its position becomes `cur + 1`. -/
def insertOp (st : MCur α) (item : α) : MCur α :=
  ⟨st.l.insertIdx st.cur item, st.cur + 1, st.idx + 1⟩

/-- `CursorMut::remove()`: `None` at the ghost node; otherwise
`detach_node(current)` and `current = next_node()` (the detached node's old
`next`, which now sits at position `cur`); `index` is untouched. -/
def removeOp (st : MCur α) : MCur α × Option α :=
  if st.isGhost then (st, none)
  else (⟨st.l.eraseIdx st.cur, st.cur, st.idx⟩, st.l[st.cur]?)

/-- `CursorMut::pop_front()`: `None` on an empty list; otherwise
`List::pop_front` removes the front node; a cursor that was at the front
node is re-pointed at the new front node (keeping its index), any other
cursor keeps its node (which is now one position earlier) and decrements
its index. -/
def popFrontOp (st : MCur α) : MCur α × Option α :=
  if st.ringEmpty then (st, none)
  else if st.isFront then
    (⟨st.l.tail, frontPos st.l.tail.length, st.idx⟩, st.l.head?)
  else
    (⟨st.l.tail, st.cur - 1, st.idx - 1⟩, st.l.head?)

/-- `CursorMut::split()`: `None` at the ghost node; otherwise detach
`current..=back` into a new list, leaving the cursor at the ghost node of
the remaining list (its index is untouched). -/
def splitOp (st : MCur α) : MCur α × Option (List α) :=
  if st.isGhost then (st, none)
  else (⟨st.l.take st.cur, st.cur, st.idx⟩, some (st.l.drop st.cur))

/-- `CursorMut::splice(other)`: nothing happens for an empty `other`;
otherwise `index += other.len` and the detached chain is attached between
`current.prev` and `current`, pushing the current node `other.len`
positions to the right. -/
def spliceOp (st : MCur α) (other : List α) : MCur α :=
  if other.isEmpty then st
  else
    ⟨st.l.take st.cur ++ other ++ st.l.drop st.cur,
      st.cur + other.length, st.idx + other.length⟩

/-- `current_mut()` write access: overwrite the current element (used by
`clone_from`). -/
def setOp (st : MCur α) (x : α) : MCur α := ⟨st.l.set st.cur x, st.cur, st.idx⟩

end MCur

/-- `List::cursor_start_mut` (and `cursor_start`). -/
def cursorStart (l : List α) : MCur α := ⟨l, frontPos l.length, 0⟩

/-- `List::cursor_end_mut` (and `cursor_end`). -/
def cursorEnd (l : List α) : MCur α := ⟨l, l.length, l.length⟩

/-- `List::cursor_mut(at)`: a start cursor moved by `try_seek_to(at)`. -/
def cursorAt (l : List α) (i : ℕ) : MCur α := ((cursorStart l).trySeekTo i).1

/-! ### The length-untracked configuration

Without the `length` feature a cursor is just its `current` node; the
moving operations read only the ring structure. -/

/-- Untracked `move_next`: position update of `move_next_cyclic` guarded as
in `move_next`. -/
def uMoveNext (l : List α) (cur : ℕ) : ℕ × Bool :=
  if ¬frontPos l.length = l.length ∧ ¬cur = l.length then
    (nextPos l.length cur, true)
  else (cur, false)

/-- Untracked `seek_forward` loop. -/
def uSeekForwardAux (l : List α) : ℕ → ℕ → ℕ → ℕ × Option ℕ
  | cur, _, 0 => (cur, none)
  | cur, done, k + 1 =>
    let r := uMoveNext l cur
    if r.2 then uSeekForwardAux l r.1 (done + 1) k else (r.1, some done)

/-- Untracked `seek_forward(steps)`. -/
def uSeekForward (l : List α) (cur steps : ℕ) : ℕ × Option ℕ :=
  uSeekForwardAux l cur 0 steps

/-- `try_seek_to(target)` without the `length` feature: remember `current`,
`move_to_start`, walk forward `target` steps; on failure restore `current`
and report `Err(target)`. -/
def uTrySeekTo (l : List α) (cur target : ℕ) : ℕ × Option ℕ :=
  let r := uSeekForward l (frontPos l.length) target
  match r.2 with
  | none => (r.1, none)
  | some _ => (cur, some target)

/-! ## Iterators (src/list/iterator.rs)

An `Iter` is a half-open range `start..end` of ring positions. -/

/-- `Iter::next`: yield `*start` and shrink the range at the front. -/
def iterNext (l : List α) (it : ℕ × ℕ) : Option α × (ℕ × ℕ) :=
  if it.1 = it.2 then (none, it) else (l[it.1]?, (it.1 + 1, it.2))

/-- `Iter::next_back`: shrink the range at the back and yield `*end`. -/
def iterNextBack (l : List α) (it : ℕ × ℕ) : Option α × (ℕ × ℕ) :=
  if it.1 = it.2 then (none, it) else (l[it.2 - 1]?, (it.1, it.2 - 1))

/-- Repeatedly call `Iter::next`, collecting the yielded elements. -/
def collectFwd (l : List α) : ℕ → ℕ × ℕ → List α
  | 0, _ => []
  | fuel + 1, it =>
    match iterNext l it with
    | (none, _) => []
    | (some x, it') => x :: collectFwd l fuel it'

/-- Repeatedly call `Iter::next_back`, collecting the yielded elements. -/
def collectBwd (l : List α) : ℕ → ℕ × ℕ → List α
  | 0, _ => []
  | fuel + 1, it =>
    match iterNextBack l it with
    | (none, _) => []
    | (some x, it') => x :: collectBwd l fuel it'

/-- `List::iter()`: the range `front_node..ghost_node`, i.e. `(0, len)`. -/
def iterOf (l : List α) : ℕ × ℕ := (0, l.length)

/-- `List::push_back(x)`: insert at the end cursor. -/
def pushBack (l : List α) (x : α) : List α := ((cursorEnd l).insertOp x).l

/-- `FromIterator`/`Extend`: start from the empty list and `push_back` every
element of the input sequence in order. -/
def fromIterModel (s : List α) : List α := s.foldl pushBack []

/-! ## List-level split / splice (src/list/mod.rs) -/

/-- `List::split_off(at)`: for `at == len` a fresh empty list is returned
and `self` kept; otherwise `cursor_mut(at).split().unwrap_or_default()`.
Returns `(remaining self, returned list)`. -/
def listSplitOff (l : List α) (i : ℕ) : List α × List α :=
  if i = l.length then (l, [])
  else
    let r := (cursorAt l i).splitOp
    (r.1.l, r.2.getD [])

/-- `List::splice_at(at, other)`: a start cursor walked forward `at` steps,
then `splice(other)`. -/
def listSpliceAt (l : List α) (i : ℕ) (other : List α) : List α :=
  (((cursorStart l).seekForward i).1.spliceOp other).l

/-! ## Clone (src/list/algorithms.rs) -/

/-- `Clone::clone`: `self.iter().cloned().collect()`, i.e. build a fresh
list from the forward iteration sequence. -/
def cloneModel (l : List α) : List α :=
  fromIterModel (collectFwd l l.length (iterOf l))

/-- The `for` loop of `Clone::clone_from`: for every element of `other`,
overwrite the current element (or `insert` when at the ghost node), then
`move_next_cyclic`. -/
def cloneFromLoop : MCur α → List α → MCur α
  | st, [] => st
  | st, x :: xs =>
    let st' := match st.current with
      | none => st.insertOp x
      | some _ => st.setOp x
    cloneFromLoop st'.moveNextCyclic xs

/-- `Clone::clone_from` (marked `FIXME incorrect cursor moves` in the
source): run the loop from a start cursor, then `cursor_mut.split()`. -/
def cloneFromModel (self other : List α) : List α :=
  ((cloneFromLoop (cursorStart self) other).splitOp).1.l

/-! ## Cursor operation sequences (for the index invariant) -/

/-- The cursor operations quantified over by the index invariant. -/
inductive COp (α : Type u) where
  | mNext : COp α
  | mPrev : COp α
  | mNextCyc : COp α
  | mPrevCyc : COp α
  | sFwd : ℕ → COp α
  | sBwd : ℕ → COp α
  | sTo : ℕ → COp α
  | ins : α → COp α
  | rem : COp α

/-- The state transition of one cursor operation (discarding results). -/
def stepOp (st : MCur α) : COp α → MCur α
  | COp.mNext => st.moveNext.1
  | COp.mPrev => st.movePrev.1
  | COp.mNextCyc => st.moveNextCyclic
  | COp.mPrevCyc => st.movePrevCyclic
  | COp.sFwd k => (st.seekForward k).1
  | COp.sBwd k => (st.seekBackward k).1
  | COp.sTo t => (st.trySeekTo t).1
  | COp.ins a => st.insertOp a
  | COp.rem => (st.removeOp).1

/-- The cursor invariant of the `length` configuration: the tracked index is
the position of the current node, and lies in `[0, len]` (position `len`
being the ghost node). -/
def Inv (st : MCur α) : Prop := st.idx = st.cur ∧ st.cur ≤ st.l.length

instance (st : MCur α) : Decidable (Inv st) := by
  unfold Inv; infer_instance

/-! ## Basic facts about ring positions -/

theorem frontPos_eq (n : ℕ) : frontPos n = 0 := by
  simp [frontPos, nextPos]

theorem nextPos_of_lt {n cur : ℕ} (h : cur < n) : nextPos n cur = cur + 1 :=
  Nat.mod_eq_of_lt (by omega)

theorem nextPos_self (n : ℕ) : nextPos n n = 0 := by
  simp [nextPos]

theorem prevPos_of_pos {n cur : ℕ} (h0 : 0 < cur) (h : cur ≤ n) :
    prevPos n cur = cur - 1 := by
  unfold prevPos
  have h1 : cur + n = (cur - 1) + 1 * (n + 1) := by omega
  rw [h1, Nat.add_mul_mod_self_right]
  exact Nat.mod_eq_of_lt (by omega)

theorem prevPos_zero (n : ℕ) : prevPos n 0 = n := by
  unfold prevPos
  rw [Nat.zero_add]
  exact Nat.mod_eq_of_lt (by omega)

theorem MCur.ringEmpty_iff (st : MCur α) : st.ringEmpty ↔ st.l = [] := by
  unfold ringEmpty
  rw [frontPos_eq]
  constructor
  · intro h
    exact List.length_eq_zero.mp h.symm
  · intro h
    simp [h]

theorem MCur.isFront_iff (st : MCur α) (h : st.cur ≤ st.l.length) :
    st.isFront ↔ st.cur = 0 := by
  unfold isFront
  constructor
  · intro hf
    by_contra h0
    rw [prevPos_of_pos (by omega) h] at hf
    omega
  · intro h0
    rw [h0, prevPos_zero]

/-! ## C2: building a list and iterating it -/

theorem pushBack_eq (l : List α) (x : α) : pushBack l x = l ++ [x] := by
  unfold pushBack cursorEnd MCur.insertOp
  simp [List.insertIdx_length_self]

theorem fromIterModel_eq (s : List α) : fromIterModel s = s := by
  suffices h : ∀ (acc : List α), s.foldl pushBack acc = acc ++ s by
    simpa using h []
  induction s with
  | nil => simp
  | cons x xs ih =>
    intro acc
    rw [List.foldl_cons, ih, pushBack_eq]
    simp

theorem collectFwd_eq (l : List α) :
    ∀ (k s : ℕ), s + k ≤ l.length →
      collectFwd l k (s, s + k) = (l.drop s).take k := by
  intro k
  induction k with
  | zero => simp [collectFwd]
  | succ k ih =>
    intro s hs
    have hlt : s < l.length := by omega
    rw [collectFwd]
    have he : iterNext l (s, s + (k + 1)) = (some l[s], (s + 1, s + (k + 1))) := by
      simp only [iterNext]
      rw [if_neg (by omega), List.getElem?_eq_getElem hlt]
    rw [he]
    show l[s] :: collectFwd l k (s + 1, s + (k + 1)) = _
    have h1 : s + (k + 1) = (s + 1) + k := by omega
    rw [h1, ih (s + 1) (by omega)]
    rw [List.drop_eq_getElem_cons hlt, List.take_succ_cons]

theorem collectBwd_eq (l : List α) :
    ∀ (k s : ℕ), s + k ≤ l.length →
      collectBwd l k (s, s + k) = ((l.drop s).take k).reverse := by
  intro k
  induction k with
  | zero => simp [collectBwd]
  | succ k ih =>
    intro s hs
    have hlt : s + k < l.length := by omega
    rw [collectBwd]
    have he : iterNextBack l (s, s + (k + 1)) = (some l[s + k], (s, s + k)) := by
      simp only [iterNextBack]
      rw [if_neg (by omega)]
      have h1 : s + (k + 1) - 1 = s + k := by omega
      rw [h1, List.getElem?_eq_getElem hlt]
    rw [he]
    show l[s + k] :: collectBwd l k (s, s + k) = _
    rw [ih s (by omega)]
    have h2 : (l.drop s).take (k + 1) = (l.drop s).take k ++ [l[s + k]] := by
      rw [List.take_succ, List.getElem?_drop, List.getElem?_eq_getElem hlt]
      rfl
    rw [h2]
    simp

end CyclicList

namespace CyclicList

/-- C2: for every finite input sequence, building a list from it with
`from_iter`/`extend` (which appends each element in order) and iterating
forward yields exactly that sequence, and iterating backward (`next_back`)
yields exactly its reverse. -/
theorem spec_c2_round_trip (s : List α) :
    collectFwd (fromIterModel s) (fromIterModel s).length (iterOf (fromIterModel s)) = s ∧
    collectBwd (fromIterModel s) (fromIterModel s).length (iterOf (fromIterModel s)) = s.reverse := by
  rw [fromIterModel_eq]
  constructor
  · have h := collectFwd_eq s s.length 0 (by omega)
    simpa [iterOf] using h
  · have h := collectBwd_eq s s.length 0 (by omega)
    simpa [iterOf] using h

/-! ## Walking lemmas for cursors -/

theorem iterate_nextPos (n : ℕ) : ∀ (k c : ℕ), c + k ≤ n → (nextPos n)^[k] c = c + k := by
  intro k
  induction k with
  | zero => simp
  | succ k ih =>
    intro c hc
    rw [Function.iterate_succ_apply, nextPos_of_lt (by omega), ih (c + 1) (by omega)]
    omega

theorem iterate_prevPos (n : ℕ) : ∀ (k c : ℕ), k ≤ c → c ≤ n → (prevPos n)^[k] c = c - k := by
  intro k
  induction k with
  | zero => simp
  | succ k ih =>
    intro c hk hc
    rw [Function.iterate_succ_apply, prevPos_of_pos (by omega) hc,
      ih (c - 1) (by omega) (by omega)]
    omega

/-- `move_next` on a valid cursor strictly before the ghost node. -/
theorem moveNext_ok (l : List α) (c : ℕ) (hlt : c < l.length) :
    MCur.moveNext (⟨l, c, c⟩ : MCur α) = (⟨l, c + 1, c + 1⟩, true) := by
  have hne : ¬(⟨l, c, c⟩ : MCur α).ringEmpty := by
    unfold MCur.ringEmpty
    simp only
    rw [frontPos_eq]
    omega
  have hng : ¬(⟨l, c, c⟩ : MCur α).isGhost := by
    unfold MCur.isGhost
    simp only
    omega
  unfold MCur.moveNext
  rw [if_pos ⟨hne, hng⟩]
  unfold MCur.moveNextCyclic
  rw [if_neg hne, if_neg hng]
  simp only [nextPos_of_lt hlt]

/-- `seek_forward`'s loop walks `k` positions forward when no boundary is hit. -/
theorem seekForwardAux_ok (l : List α) :
    ∀ (k c d : ℕ), c + k ≤ l.length →
      MCur.seekForwardAux (⟨l, c, c⟩ : MCur α) d k = (⟨l, c + k, c + k⟩, none) := by
  intro k
  induction k with
  | zero => simp [MCur.seekForwardAux]
  | succ k ih =>
    intro c d hc
    rw [MCur.seekForwardAux]
    rw [moveNext_ok l c (by omega)]
    simp only [if_pos]
    rw [ih (c + 1) (d + 1) (by omega)]
    have h1 : c + 1 + k = c + (k + 1) := by omega
    rw [h1]

theorem seekForward_ok (l : List α) (c k : ℕ) (hc : c + k ≤ l.length) :
    MCur.seekForward (⟨l, c, c⟩ : MCur α) k = (⟨l, c + k, c + k⟩, none) :=
  seekForwardAux_ok l k c 0 hc

/-- `try_seek_to` in the `length` configuration: an in-range target is
reached exactly (whichever of the four strategies runs), an out-of-range
target reports `Err(target)` and leaves the cursor in place. -/
theorem trySeekTo_spec (l : List α) (c target : ℕ) (hc : c ≤ l.length) :
    (target ≤ l.length →
      MCur.trySeekTo (⟨l, c, c⟩ : MCur α) target = (⟨l, target, target⟩, none)) ∧
    (l.length < target →
      MCur.trySeekTo (⟨l, c, c⟩ : MCur α) target = (⟨l, c, c⟩, some target)) := by
  constructor
  · intro ht
    unfold MCur.trySeekTo
    by_cases h1 : target = c
    · rw [if_pos h1]
      rw [h1]
    · rw [if_neg h1, if_neg (by simp only; omega)]
      by_cases h2 : target = 0
      · rw [if_pos h2]
        unfold MCur.moveToStart
        rw [h2, frontPos_eq]
      · rw [if_neg h2]
        by_cases h3 : target = l.length
        · rw [if_pos (by simp only; omega)]
          unfold MCur.moveToEnd
          rw [h3]
        · rw [if_neg (by simp only; omega)]
          by_cases h4 : c < target
          · rw [if_pos (by simp only; omega)]
            by_cases h5 : target - c ≤ l.length - target
            · rw [if_pos (by simp only; omega)]
              unfold MCur.seekForwardFast
              simp only
              rw [iterate_nextPos l.length (target - c) c (by omega)]
              have he : c + (target - c) = target := by omega
              rw [he]
            · rw [if_neg (by simp only; omega)]
              unfold MCur.moveToEnd MCur.seekBackwardFast
              simp only
              rw [iterate_prevPos l.length (l.length - target) l.length (by omega) (by omega)]
              have he : l.length - (l.length - target) = target := by omega
              rw [he]
          · rw [if_neg (by simp only; omega)]
            by_cases h5 : c - target ≤ target
            · rw [if_pos (by simp only; omega)]
              unfold MCur.seekBackwardFast
              simp only
              rw [iterate_prevPos l.length (c - target) c (by omega) hc]
              have he : c - (c - target) = target := by omega
              rw [he]
            · rw [if_neg (by simp only; omega)]
              unfold MCur.moveToStart MCur.seekForwardFast
              simp only
              rw [frontPos_eq, iterate_nextPos l.length target 0 (by omega)]
              have he : 0 + target = target := by omega
              rw [he]
  · intro ht
    unfold MCur.trySeekTo
    rw [if_neg (by simp only; omega), if_pos (by simp only; omega)]

end CyclicList

namespace CyclicList

theorem uMoveNext_ok (l : List α) (c : ℕ) (h : c < l.length) :
    uMoveNext l c = (c + 1, true) := by
  unfold uMoveNext
  rw [if_pos ⟨by rw [frontPos_eq]; omega, by omega⟩, nextPos_of_lt h]

theorem uSeekForwardAux_ok (l : List α) :
    ∀ (k c d : ℕ), c + k ≤ l.length → uSeekForwardAux l c d k = (c + k, none) := by
  intro k
  induction k with
  | zero => simp [uSeekForwardAux]
  | succ k ih =>
    intro c d hc
    rw [uSeekForwardAux, uMoveNext_ok l c (by omega)]
    simp only [if_pos]
    rw [ih (c + 1) (d + 1) (by omega)]
    have h1 : c + 1 + k = c + (k + 1) := by omega
    rw [h1]

theorem uSeekForwardAux_fail (l : List α) :
    ∀ (k c d : ℕ), c ≤ l.length → l.length < c + k →
      (uSeekForwardAux l c d k).2 = some (d + (l.length - c)) := by
  intro k
  induction k with
  | zero =>
    intro c d hc h
    omega
  | succ k ih =>
    intro c d hc h
    by_cases hlt : c < l.length
    · rw [uSeekForwardAux, uMoveNext_ok l c hlt]
      simp only [if_pos]
      rw [ih (c + 1) (d + 1) (by omega) (by omega)]
      have h1 : d + 1 + (l.length - (c + 1)) = d + (l.length - c) := by omega
      rw [h1]
    · have hce : c = l.length := by omega
      rw [uSeekForwardAux]
      have hm : (uMoveNext l c).2 = false := by
        unfold uMoveNext
        rw [if_neg]
        intro hand
        exact hand.2 hce
      have hm1 : (uMoveNext l c).1 = c := by
        unfold uMoveNext
        rw [if_neg]
        intro hand
        exact hand.2 hce
      rw [hm, hm1]
      simp only [Bool.false_eq_true, if_neg, ite_false]
      rw [hce]
      simp

theorem uTrySeekTo_spec (l : List α) (c target : ℕ) :
    (target ≤ l.length → uTrySeekTo l c target = (target, none)) ∧
    (l.length < target → uTrySeekTo l c target = (c, some target)) := by
  constructor
  · intro ht
    unfold uTrySeekTo uSeekForward
    rw [frontPos_eq, uSeekForwardAux_ok l target 0 0 (by omega)]
    simp
  · intro ht
    unfold uTrySeekTo
    have h2 : (uSeekForward l (frontPos l.length) target).2 = some l.length := by
      unfold uSeekForward
      rw [frontPos_eq]
      have h3 := uSeekForwardAux_fail l target 0 0 (by omega) (by omega)
      simpa using h3
    simp only [h2]

theorem current_mk (l : List α) (t : ℕ) :
    (⟨l, t, t⟩ : MCur α).current = l[t]? := by
  unfold MCur.current MCur.isGhost
  simp only
  by_cases ht : t = l.length
  · rw [if_pos ht, ht, List.getElem?_length]
  · rw [if_neg ht]

/-- C4: on every list, from every starting cursor position, `try_seek_to`
with an in-range target (`0 ≤ target ≤ len`) succeeds and leaves the cursor
exactly at position `target` — its index equals `target` and `current()`
returns the element at index `target` (`none` at `target == len`) — in both
the length-tracked and length-untracked configurations; an out-of-range
target fails and leaves the cursor unchanged. -/
theorem spec_c4_try_seek_to (l : List α) (c target : ℕ) (hc : c ≤ l.length) :
    (target ≤ l.length →
      (MCur.trySeekTo (⟨l, c, c⟩ : MCur α) target).2 = none ∧
      (MCur.trySeekTo (⟨l, c, c⟩ : MCur α) target).1.idx = target ∧
      (MCur.trySeekTo (⟨l, c, c⟩ : MCur α) target).1.current = l[target]? ∧
      (MCur.trySeekTo (⟨l, c, c⟩ : MCur α) target).1.l = l) ∧
    (l.length < target →
      MCur.trySeekTo (⟨l, c, c⟩ : MCur α) target = (⟨l, c, c⟩, some target)) ∧
    (target ≤ l.length → uTrySeekTo l c target = (target, none)) ∧
    (l.length < target → uTrySeekTo l c target = (c, some target)) := by
  refine ⟨?_, (trySeekTo_spec l c target hc).2, (uTrySeekTo_spec l c target).1,
    (uTrySeekTo_spec l c target).2⟩
  intro ht
  rw [(trySeekTo_spec l c target hc).1 ht]
  exact ⟨rfl, rfl, current_mk l target, rfl⟩

theorem cursorStart_eq (l : List α) : cursorStart l = ⟨l, 0, 0⟩ := by
  unfold cursorStart
  rw [frontPos_eq]

theorem cursorAt_eq (l : List α) (i : ℕ) (h : i ≤ l.length) :
    cursorAt l i = ⟨l, i, i⟩ := by
  unfold cursorAt
  rw [cursorStart_eq, (trySeekTo_spec l 0 i (by omega)).1 h]

/-- C3: splitting off the suffix at `p` and splicing it back at `p` restores
the original list (including `p = 0`, `p = len` and the empty list). -/
theorem spec_c3_split_splice (l : List α) (p : ℕ) (hp : p ≤ l.length) :
    listSpliceAt (listSplitOff l p).1 p (listSplitOff l p).2 = l := by
  unfold listSplitOff
  by_cases h : p = l.length
  · rw [if_pos h]
    show listSpliceAt l p [] = l
    unfold listSpliceAt
    rw [cursorStart_eq, seekForward_ok l 0 p (by omega)]
    show (MCur.spliceOp ⟨l, 0 + p, 0 + p⟩ []).l = l
    unfold MCur.spliceOp
    simp
  · rw [if_neg h]
    rw [cursorAt_eq l p hp]
    have hsplit : MCur.splitOp (⟨l, p, p⟩ : MCur α) =
        (⟨l.take p, p, p⟩, some (l.drop p)) := by
      unfold MCur.splitOp MCur.isGhost
      rw [if_neg (by simp only; omega)]
    rw [hsplit]
    show listSpliceAt (l.take p) p ((some (l.drop p)).getD []) = l
    simp only [Option.getD_some]
    unfold listSpliceAt
    have hlen : (l.take p).length = p := by
      rw [List.length_take]
      omega
    rw [cursorStart_eq, seekForward_ok (l.take p) 0 p (by omega)]
    show (MCur.spliceOp ⟨l.take p, 0 + p, 0 + p⟩ (l.drop p)).l = l
    unfold MCur.spliceOp
    rw [if_neg (by
      simp only [List.isEmpty_iff, List.drop_eq_nil_iff]
      omega)]
    simp only [Nat.zero_add]
    have hd : (l.take p).drop p = [] := by
      rw [List.drop_eq_nil_iff]
      omega
    rw [List.take_take, Nat.min_self, hd]
    rw [List.append_nil, List.take_append_drop]

/-- C5: `CursorMut::insert(item)` places the new element immediately before
the cursor: `current()` is unchanged, `previous()` returns the new element,
and the tracked index grows by one. -/
theorem spec_c5_insert (st : MCur α) (x : α) (h : Inv st) :
    (st.insertOp x).current = st.current ∧
    (st.insertOp x).previous = some x ∧
    (st.insertOp x).idx = st.idx + 1 := by
  obtain ⟨l, q, c⟩ := st
  obtain ⟨hi, hc⟩ := h
  simp only at hi hc
  subst hi
  have hlen : (l.insertIdx c x).length = l.length + 1 := List.length_insertIdx c l hc
  refine ⟨?_, ?_, rfl⟩
  · unfold MCur.insertOp MCur.current MCur.isGhost
    simp only [hlen]
    by_cases hg : c = l.length
    · rw [if_pos (by omega), if_pos hg]
    · rw [if_neg (by omega), if_neg hg]
      have h1 : c + 1 < l.length + 1 := by omega
      rw [List.getElem?_eq_getElem (by omega), List.getElem?_eq_getElem (by omega)]
      have h2 := List.getElem_insertIdx_add_succ l x c 0 (by omega)
      simpa using h2
  · unfold MCur.insertOp MCur.previous MCur.isFront
    simp only [hlen]
    rw [prevPos_of_pos (by omega) (by omega)]
    rw [if_neg (by omega)]
    simp only [Nat.add_sub_cancel]
    rw [List.getElem?_eq_getElem (by omega)]
    rw [List.getElem_insertIdx_self l x c hc]

/-- C6: `CursorMut::remove()` returns `None` exactly at the ghost node (and
then changes nothing); otherwise it returns the element at the cursor index,
deletes it from the list, and leaves the cursor on the node that followed
the removed one, at the same index. -/
theorem spec_c6_remove (st : MCur α) (h : Inv st) :
    ((st.removeOp).2 = none ↔ st.isGhost) ∧
    (st.isGhost → st.removeOp = (st, none)) ∧
    (¬st.isGhost →
      (st.removeOp).2 = st.l[st.cur]? ∧
      (st.removeOp).1.l = st.l.take st.cur ++ st.l.drop (st.cur + 1) ∧
      (st.removeOp).1.cur = st.cur ∧
      (st.removeOp).1.idx = st.idx ∧
      (st.removeOp).1.current = st.l[st.cur + 1]?) := by
  obtain ⟨l, q, c⟩ := st
  obtain ⟨hi, hc⟩ := h
  simp only at hi hc
  subst hi
  by_cases hg : (⟨l, c, c⟩ : MCur α).isGhost
  · unfold MCur.removeOp
    rw [if_pos hg]
    exact ⟨by simp [hg], fun _ => rfl, fun hng => absurd hg hng⟩
  · have hlt : c < l.length := by
      unfold MCur.isGhost at hg
      simp only at hg
      omega
    unfold MCur.removeOp
    rw [if_neg hg]
    have hlen : (l.eraseIdx c).length = l.length - 1 := by
      rw [List.length_eraseIdx]
      rw [if_pos hlt]
    refine ⟨?_, fun hgg => absurd hgg hg, fun _ => ⟨rfl, ?_, rfl, rfl, ?_⟩⟩
    · constructor
      · intro hn
        rw [List.getElem?_eq_getElem hlt] at hn
        exact absurd hn (by simp)
      · intro hgg
        exact absurd hgg hg
    · exact List.eraseIdx_eq_take_drop_succ l c
    · unfold MCur.current MCur.isGhost
      simp only [hlen]
      by_cases hlast : c = l.length - 1
      · rw [if_pos hlast, List.getElem?_eq_none (by omega)]
      · rw [if_neg hlast, List.getElem?_eraseIdx, if_neg (by omega)]

/-- C10: `CursorMut::pop_front` removes and returns the front element; a
cursor at the front node is repositioned to the new front node with index
still 0, any other cursor keeps its node (one position earlier) and its
index drops by one; on the empty list nothing happens. -/
theorem spec_c10_pop_front (st : MCur α) (h : Inv st) :
    (st.l = [] → st.popFrontOp = (st, none)) ∧
    (st.l ≠ [] →
      (st.popFrontOp).2 = st.l.head? ∧
      (st.popFrontOp).1.l = st.l.tail ∧
      (st.cur = 0 →
        (st.popFrontOp).1.cur = frontPos st.l.tail.length ∧
        (st.popFrontOp).1.idx = 0) ∧
      (0 < st.cur →
        (st.popFrontOp).1.cur = st.cur - 1 ∧
        (st.popFrontOp).1.idx = st.idx - 1 ∧
        (st.popFrontOp).1.current = st.current)) := by
  obtain ⟨l, q, c⟩ := st
  obtain ⟨hi, hc⟩ := h
  simp only at hi hc
  subst hi
  constructor
  · intro hnil
    unfold MCur.popFrontOp
    rw [if_pos ((MCur.ringEmpty_iff _).mpr hnil)]
  · intro hne
    have hnre : ¬(⟨l, c, c⟩ : MCur α).ringEmpty := fun hre =>
      hne ((MCur.ringEmpty_iff _).mp hre)
    have hfront : (⟨l, c, c⟩ : MCur α).isFront ↔ c = 0 := MCur.isFront_iff _ hc
    unfold MCur.popFrontOp
    rw [if_neg hnre]
    by_cases hc0 : c = 0
    · rw [if_pos (hfront.mpr hc0)]
      exact ⟨rfl, rfl, fun _ => ⟨rfl, hc0⟩, fun hpos => absurd hc0 (by simp only at hpos; omega)⟩
    · rw [if_neg (fun hf => hc0 (hfront.mp hf))]
      refine ⟨rfl, rfl, fun hczero => absurd hczero hc0, fun hpos => ⟨rfl, rfl, ?_⟩⟩
      have hlen : l.length ≠ 0 := fun h0 => hne (List.length_eq_zero.mp h0)
      unfold MCur.current MCur.isGhost
      simp only [List.length_tail]
      by_cases hg : c = l.length
      · rw [if_pos (by omega), if_pos hg]
      · rw [if_neg (by omega), if_neg hg, List.getElem?_tail]
        have he : c - 1 + 1 = c := by omega
        rw [he]

end CyclicList

namespace CyclicList

/-! ## Preservation of the cursor index invariant -/

theorem inv_moveNextCyclic (st : MCur α) (h : Inv st) : Inv st.moveNextCyclic := by
  obtain ⟨l, q, c⟩ := st
  obtain ⟨hi, hc⟩ := h
  simp only at hi hc
  subst hi
  unfold MCur.moveNextCyclic
  by_cases he : (⟨l, c, c⟩ : MCur α).ringEmpty
  · rw [if_pos he]
    exact ⟨rfl, hc⟩
  · rw [if_neg he]
    have hlen : 0 < l.length := by
      by_contra h0
      exact he ((MCur.ringEmpty_iff _).mpr (by
        have : l.length = 0 := by omega
        exact List.length_eq_zero.mp this))
    by_cases hg : (⟨l, c, c⟩ : MCur α).isGhost
    · have hcl : c = l.length := hg
      rw [if_pos hg]
      constructor
      · show (0 : ℕ) = nextPos l.length c
        rw [hcl, nextPos_self]
      · show nextPos l.length c ≤ l.length
        rw [hcl, nextPos_self]
        omega
    · have hcl : c < l.length := by
        have : ¬c = l.length := hg
        omega
      rw [if_neg hg]
      constructor
      · show c + 1 = nextPos l.length c
        rw [nextPos_of_lt hcl]
      · show nextPos l.length c ≤ l.length
        rw [nextPos_of_lt hcl]
        omega

theorem inv_movePrevCyclic (st : MCur α) (h : Inv st) : Inv st.movePrevCyclic := by
  obtain ⟨l, q, c⟩ := st
  obtain ⟨hi, hc⟩ := h
  simp only at hi hc
  subst hi
  unfold MCur.movePrevCyclic
  by_cases he : (⟨l, c, c⟩ : MCur α).ringEmpty
  · rw [if_pos he]
    exact ⟨rfl, hc⟩
  · rw [if_neg he]
    by_cases hf : (⟨l, c, c⟩ : MCur α).isFront
    · have hc0 : c = 0 := (MCur.isFront_iff _ hc).mp hf
      rw [if_pos hf]
      constructor
      · show l.length = prevPos l.length c
        rw [hc0, prevPos_zero]
      · show prevPos l.length c ≤ l.length
        rw [hc0, prevPos_zero]
    · have hc0 : ¬c = 0 := fun h0 => hf ((MCur.isFront_iff _ hc).mpr h0)
      rw [if_neg hf]
      constructor
      · show c - 1 = prevPos l.length c
        rw [prevPos_of_pos (by omega) hc]
      · show prevPos l.length c ≤ l.length
        rw [prevPos_of_pos (by omega) hc]
        omega

theorem inv_moveNext (st : MCur α) (h : Inv st) : Inv st.moveNext.1 := by
  unfold MCur.moveNext
  by_cases hcond : ¬st.ringEmpty ∧ ¬st.isGhost
  · rw [if_pos hcond]
    exact inv_moveNextCyclic st h
  · rw [if_neg hcond]
    exact h

theorem inv_movePrev (st : MCur α) (h : Inv st) : Inv st.movePrev.1 := by
  unfold MCur.movePrev
  by_cases hcond : ¬st.ringEmpty ∧ ¬st.isFront
  · rw [if_pos hcond]
    exact inv_movePrevCyclic st h
  · rw [if_neg hcond]
    exact h

theorem inv_seekForwardAux (k : ℕ) :
    ∀ (st : MCur α) (d : ℕ), Inv st → Inv (MCur.seekForwardAux st d k).1 := by
  induction k with
  | zero =>
    intro st d h
    exact h
  | succ k ih =>
    intro st d h
    rw [MCur.seekForwardAux]
    by_cases hok : st.moveNext.2
    · rw [if_pos hok]
      exact ih _ _ (inv_moveNext st h)
    · rw [if_neg hok]
      exact inv_moveNext st h

theorem inv_seekBackwardAux (k : ℕ) :
    ∀ (st : MCur α) (d : ℕ), Inv st → Inv (MCur.seekBackwardAux st d k).1 := by
  induction k with
  | zero =>
    intro st d h
    exact h
  | succ k ih =>
    intro st d h
    rw [MCur.seekBackwardAux]
    by_cases hok : st.movePrev.2
    · rw [if_pos hok]
      exact ih _ _ (inv_movePrev st h)
    · rw [if_neg hok]
      exact inv_movePrev st h

theorem inv_trySeekTo (st : MCur α) (t : ℕ) (h : Inv st) : Inv (st.trySeekTo t).1 := by
  obtain ⟨l, q, c⟩ := st
  obtain ⟨hi, hc⟩ := h
  simp only at hi hc
  subst hi
  by_cases ht : t ≤ l.length
  · rw [(trySeekTo_spec l c t hc).1 ht]
    exact ⟨rfl, ht⟩
  · rw [(trySeekTo_spec l c t hc).2 (by omega)]
    exact ⟨rfl, hc⟩

theorem inv_insertOp (st : MCur α) (a : α) (h : Inv st) : Inv (st.insertOp a) := by
  obtain ⟨l, q, c⟩ := st
  obtain ⟨hi, hc⟩ := h
  simp only at hi hc
  subst hi
  refine ⟨rfl, ?_⟩
  show c + 1 ≤ (l.insertIdx c a).length
  rw [List.length_insertIdx c l hc]
  omega

theorem inv_removeOp (st : MCur α) (h : Inv st) : Inv (st.removeOp).1 := by
  obtain ⟨l, q, c⟩ := st
  obtain ⟨hi, hc⟩ := h
  simp only at hi hc
  subst hi
  unfold MCur.removeOp
  by_cases hg : (⟨l, c, c⟩ : MCur α).isGhost
  · rw [if_pos hg]
    exact ⟨rfl, hc⟩
  · have hlt : c < l.length := by
      have : ¬c = l.length := hg
      omega
    rw [if_neg hg]
    refine ⟨rfl, ?_⟩
    show c ≤ (l.eraseIdx c).length
    rw [List.length_eraseIdx, if_pos hlt]
    omega

theorem inv_stepOp (st : MCur α) (op : COp α) (h : Inv st) : Inv (stepOp st op) := by
  cases op with
  | mNext => exact inv_moveNext st h
  | mPrev => exact inv_movePrev st h
  | mNextCyc => exact inv_moveNextCyclic st h
  | mPrevCyc => exact inv_movePrevCyclic st h
  | sFwd k => exact inv_seekForwardAux k st 0 h
  | sBwd k => exact inv_seekBackwardAux k st 0 h
  | sTo t => exact inv_trySeekTo st t h
  | ins a => exact inv_insertOp st a h
  | rem => exact inv_removeOp st h

/-- C7: under length tracking, after any sequence of
`move_next`/`move_prev`/`move_next_cyclic`/`move_prev_cyclic`/`seek_forward`/
`seek_backward`/`try_seek_to`/`insert`/`remove`, the tracked index equals the
cursor's position in the ring and lies in `[0, len]`, with `index == len`
exactly at the sentinel (in the encoding, position `len` *is* the sentinel). -/
theorem spec_c7_index_invariant (ops : List (COp α)) (st : MCur α) (h : Inv st) :
    Inv (ops.foldl stepOp st) := by
  induction ops generalizing st with
  | nil => exact h
  | cons op ops ih =>
    rw [List.foldl_cons]
    exact ih (stepOp st op) (inv_stepOp st op h)

/-- Witness for C7 at a concrete operation sequence. -/
theorem spec_c7_index_invariant_witness :
    Inv (List.foldl stepOp (⟨[1, 2, 3], 0, 0⟩ : MCur ℕ)
      [COp.ins 5, COp.mNextCyc, COp.sTo 1, COp.rem, COp.sFwd 2, COp.mPrev, COp.sBwd 9]) :=
  spec_c7_index_invariant
    [COp.ins 5, COp.mNextCyc, COp.sTo 1, COp.rem, COp.sFwd 2, COp.mPrev, COp.sBwd 9]
    (⟨[1, 2, 3], 0, 0⟩ : MCur ℕ) (by decide)

/-- Counterexample for C8 as stated: on the one-element list, seeking to
target 3 overshoots `len = 1` by 2, but the carried error value is not the
overshoot magnitude `3 - 1`. -/
theorem spec_c8_counterexample :
    ¬((MCur.trySeekTo (⟨[0], 0, 0⟩ : MCur ℕ) 3).2 =
      some (3 - ([0] : List ℕ).length)) := by
  decide

/-- C8 (amended): for every cursor and every `target > len`, `try_seek_to`
fails with a recoverable error carrying the requested `target` itself (not
the overshoot `target - len`), leaving the cursor unchanged — in both the
length-tracked and the length-untracked configurations. -/
theorem spec_c8_out_of_range (l : List α) (c target : ℕ) (hc : c ≤ l.length)
    (ht : l.length < target) :
    MCur.trySeekTo (⟨l, c, c⟩ : MCur α) target = (⟨l, c, c⟩, some target) ∧
    uTrySeekTo l c target = (c, some target) :=
  ⟨(trySeekTo_spec l c target hc).2 ht, (uTrySeekTo_spec l c target).2 ht⟩

/-- Witness for C8 (amended) at a concrete cursor and target. -/
theorem spec_c8_out_of_range_witness :
    MCur.trySeekTo (⟨[0], 0, 0⟩ : MCur ℕ) 3 = (⟨[0], 0, 0⟩, some 3) ∧
    uTrySeekTo ([0] : List ℕ) 0 3 = (0, some 3) :=
  spec_c8_out_of_range [0] 0 3 (by decide) (by decide)

/-- C9: `clone()` is faithful, but `clone_from` (marked `FIXME incorrect
cursor moves` in the source) is not: growing an empty list from `[0]`
leaves `self` empty instead of `[0]` — after the `insert` at the ghost node,
`move_next_cyclic` wraps to the front node, so the final `split()` detaches
the entire list. -/
theorem spec_c9_clone_from_bug :
    cloneFromModel ([] : List ℕ) [0] = [] ∧ ([] : List ℕ) ≠ [0] := by
  decide

end CyclicList

namespace CyclicList

/-- Witness for C3 at a concrete list and split position. -/
theorem spec_c3_split_splice_witness :
    listSpliceAt (listSplitOff ([0, 1, 2, 3] : List ℕ) 2).1 2
      (listSplitOff ([0, 1, 2, 3] : List ℕ) 2).2 = [0, 1, 2, 3] :=
  spec_c3_split_splice [0, 1, 2, 3] 2 (by decide)

/-- Witness for C4 at concrete cursors: an in-range and an out-of-range
target, in both configurations. -/
theorem spec_c4_try_seek_to_witness :
    (MCur.trySeekTo (⟨[10, 20, 30], 1, 1⟩ : MCur ℕ) 2).1.idx = 2 ∧
    (MCur.trySeekTo (⟨[10, 20, 30], 1, 1⟩ : MCur ℕ) 2).1.current = some 30 ∧
    MCur.trySeekTo (⟨[10, 20, 30], 1, 1⟩ : MCur ℕ) 9 = (⟨[10, 20, 30], 1, 1⟩, some 9) ∧
    uTrySeekTo ([10, 20, 30] : List ℕ) 1 2 = (2, none) := by
  have h2 := spec_c4_try_seek_to [10, 20, 30] 1 2 (by decide)
  have h9 := spec_c4_try_seek_to ([10, 20, 30] : List ℕ) 1 9 (by decide)
  refine ⟨(h2.1 (by decide)).2.1, ?_, h9.2.1 (by decide), h2.2.2.1 (by decide)⟩
  rw [(h2.1 (by decide)).2.2.1]
  decide

/-- Witness for C5: the spec's example 2 — cursor at position 1 of `[1,2,3]`,
`insert(9)`; `current()` is still `2`, `previous()` is `9`. -/
theorem spec_c5_insert_witness :
    ((⟨[1, 2, 3], 1, 1⟩ : MCur ℕ).insertOp 9).current =
      (⟨[1, 2, 3], 1, 1⟩ : MCur ℕ).current ∧
    ((⟨[1, 2, 3], 1, 1⟩ : MCur ℕ).insertOp 9).previous = some 9 ∧
    ((⟨[1, 2, 3], 1, 1⟩ : MCur ℕ).insertOp 9).idx = (⟨[1, 2, 3], 1, 1⟩ : MCur ℕ).idx + 1 :=
  spec_c5_insert _ 9 (by decide)

/-- Witness for C6 at a concrete cursor in the middle of a list. -/
theorem spec_c6_remove_witness :
    (((⟨[0, 1, 2, 3], 2, 2⟩ : MCur ℕ).removeOp).2 = none ↔
      (⟨[0, 1, 2, 3], 2, 2⟩ : MCur ℕ).isGhost) ∧
    ((⟨[0, 1, 2, 3], 2, 2⟩ : MCur ℕ).isGhost →
      (⟨[0, 1, 2, 3], 2, 2⟩ : MCur ℕ).removeOp = (⟨[0, 1, 2, 3], 2, 2⟩, none)) ∧
    (¬(⟨[0, 1, 2, 3], 2, 2⟩ : MCur ℕ).isGhost →
      ((⟨[0, 1, 2, 3], 2, 2⟩ : MCur ℕ).removeOp).2 = ([0, 1, 2, 3] : List ℕ)[2]? ∧
      ((⟨[0, 1, 2, 3], 2, 2⟩ : MCur ℕ).removeOp).1.l =
        ([0, 1, 2, 3] : List ℕ).take 2 ++ ([0, 1, 2, 3] : List ℕ).drop 3 ∧
      ((⟨[0, 1, 2, 3], 2, 2⟩ : MCur ℕ).removeOp).1.cur = 2 ∧
      ((⟨[0, 1, 2, 3], 2, 2⟩ : MCur ℕ).removeOp).1.idx = 2 ∧
      ((⟨[0, 1, 2, 3], 2, 2⟩ : MCur ℕ).removeOp).1.current = ([0, 1, 2, 3] : List ℕ)[3]?) :=
  spec_c6_remove (⟨[0, 1, 2, 3], 2, 2⟩ : MCur ℕ) (by decide)

/-- Witness for C10 at a concrete cursor away from the front. -/
theorem spec_c10_pop_front_witness :
    (([1, 2, 3] : List ℕ) = [] →
      (⟨[1, 2, 3], 1, 1⟩ : MCur ℕ).popFrontOp = (⟨[1, 2, 3], 1, 1⟩, none)) ∧
    (([1, 2, 3] : List ℕ) ≠ [] →
      ((⟨[1, 2, 3], 1, 1⟩ : MCur ℕ).popFrontOp).2 = ([1, 2, 3] : List ℕ).head? ∧
      ((⟨[1, 2, 3], 1, 1⟩ : MCur ℕ).popFrontOp).1.l = ([1, 2, 3] : List ℕ).tail ∧
      ((1 : ℕ) = 0 →
        ((⟨[1, 2, 3], 1, 1⟩ : MCur ℕ).popFrontOp).1.cur =
          frontPos ([1, 2, 3] : List ℕ).tail.length ∧
        ((⟨[1, 2, 3], 1, 1⟩ : MCur ℕ).popFrontOp).1.idx = 0) ∧
      ((0 : ℕ) < 1 →
        ((⟨[1, 2, 3], 1, 1⟩ : MCur ℕ).popFrontOp).1.cur = 1 - 1 ∧
        ((⟨[1, 2, 3], 1, 1⟩ : MCur ℕ).popFrontOp).1.idx = 1 - 1 ∧
        ((⟨[1, 2, 3], 1, 1⟩ : MCur ℕ).popFrontOp).1.current =
          (⟨[1, 2, 3], 1, 1⟩ : MCur ℕ).current)) :=
  spec_c10_pop_front (⟨[1, 2, 3], 1, 1⟩ : MCur ℕ) (by decide)

end CyclicList

namespace CyclicList

open List

/-! ## C1: the sort engine — permutation -/

theorem insort_perm (less : α → α → Bool) (x : α) :
    ∀ (d : List α), insort less x d ~ x :: d := by
  intro d
  induction d with
  | nil => rfl
  | cons s rest ih =>
    rw [insort]
    by_cases h : less x s
    · rw [if_pos h]
    · rw [if_neg h]
      exact (ih.cons s).trans (List.Perm.swap x s rest)

theorem isortLoop_perm (less : α → α → Bool) :
    ∀ (rest done : List α), isortLoop less done rest ~ done ++ rest := by
  intro rest
  induction rest with
  | nil =>
    intro done
    simp [isortLoop]
  | cons x rs ih =>
    intro done
    rw [isortLoop]
    have hins : isortLoop less (insort less x done) rs ~ done ++ x :: rs := by
      refine (ih (insort less x done)).trans ?_
      refine (List.Perm.append_right rs (insort_perm less x done)).trans ?_
      exact List.perm_middle.symm
    cases hlast : done.getLast? with
    | none => exact hins
    | some b =>
      show (if less x b = true then isortLoop less (insort less x done) rs
        else isortLoop less (done ++ [x]) rs) ~ done ++ x :: rs
      by_cases h : less x b
      · rw [if_pos h]
        exact hins
      · rw [if_neg h]
        refine (ih (done ++ [x])).trans ?_
        rw [List.append_assoc]
        rfl

theorem insertionSortRange_perm (less : α → α → Bool) (l : List α) :
    insertionSortRange less l ~ l := by
  cases l with
  | nil => rfl
  | cons x xs => exact isortLoop_perm less xs [x]

theorem mergeLoop_perm (less : α → α → Bool) (mb : α) :
    ∀ (n : ℕ) (right : List α), right.length ≤ n →
      ∀ (processed : List α) (pos : ℕ),
        mergeLoop less mb processed pos right ~ processed ++ right := by
  intro n
  induction n with
  | zero =>
    intro right hn processed pos
    have : right = [] := List.length_eq_zero.mp (by omega)
    subst this
    rw [mergeLoop]
    simp
  | succ n ih =>
    intro right hn processed pos
    cases right with
    | nil =>
      rw [mergeLoop]
      simp
    | cons x rs =>
      rw [mergeLoop]
      by_cases hxmb : less x mb
      · rw [if_pos hxmb]
        cases hfi : findInsert less x (processed.drop pos) with
        | none => rfl
        | some p =>
          obtain ⟨dj, s⟩ := p
          simp only
          set run := x :: rs.takeWhile (fun e => less e s) with hrun
          set rest' := rs.dropWhile (fun e => less e s) with hrest
          have hlen : rest'.length ≤ n := by
            have h1 : rest'.length ≤ rs.length :=
              List.Sublist.length_le (List.dropWhile_sublist _)
            simp only [List.length_cons] at hn
            omega
          refine (ih rest' hlen _ _).trans ?_
          have hsplit : run ++ rest' = x :: rs := by
            rw [hrun, hrest, List.cons_append, List.takeWhile_append_dropWhile]
          calc (processed.take (pos + dj) ++ run ++ processed.drop (pos + dj)) ++ rest'
              ~ processed.take (pos + dj) ++ (run ++ (processed.drop (pos + dj) ++ rest')) := by
                simp only [List.append_assoc]
                rfl
            _ ~ processed.take (pos + dj) ++ (processed.drop (pos + dj) ++ (run ++ rest')) := by
                refine List.Perm.append_left _ ?_
                calc run ++ (processed.drop (pos + dj) ++ rest')
                    ~ (run ++ processed.drop (pos + dj)) ++ rest' := by
                      rw [List.append_assoc]
                  _ ~ (processed.drop (pos + dj) ++ run) ++ rest' :=
                      List.Perm.append_right _ (List.perm_append_comm)
                  _ ~ processed.drop (pos + dj) ++ (run ++ rest') := by
                      rw [List.append_assoc]
            _ ~ processed ++ (x :: rs) := by
                rw [hsplit, ← List.append_assoc, List.take_append_drop]
      · rw [if_neg hxmb]

theorem mergeRange_perm (less : α → α → Bool) (left right : List α) :
    mergeRange less left right ~ left ++ right := by
  unfold mergeRange
  cases hlast : left.getLast? with
  | none => rfl
  | some mb => exact mergeLoop_perm less mb right.length right (by omega) left 0

theorem msortRange_perm (less : α → α → Bool) :
    ∀ (n : ℕ) (l : List α), l.length ≤ n → msortRange less l ~ l := by
  intro n
  induction n with
  | zero =>
    intro l hn
    have : l = [] := List.length_eq_zero.mp (by omega)
    subst this
    rw [msortRange]
    simp only [List.length_nil, Nat.zero_le, if_pos]
    rfl
  | succ n ih =>
    intro l hn
    rw [msortRange]
    by_cases h8 : l.length ≤ 8
    · rw [if_pos h8]
      exact insertionSortRange_perm less l
    · rw [if_neg h8]
      simp only
      set m := l.length / 2 with hm
      have htl : (l.take m).length ≤ n := by
        rw [List.length_take]
        omega
      have hdl : (l.drop m).length ≤ n := by
        rw [List.length_drop]
        omega
      have hleft : (if 2 ≤ (l.take m).length then msortRange less (l.take m)
          else l.take m) ~ l.take m := by
        by_cases h2 : 2 ≤ (l.take m).length
        · rw [if_pos h2]
          exact ih (l.take m) htl
        · rw [if_neg h2]
      have hright : (if 2 ≤ (l.drop m).length then msortRange less (l.drop m)
          else l.drop m) ~ l.drop m := by
        by_cases h2 : 2 ≤ (l.drop m).length
        · rw [if_pos h2]
          exact ih (l.drop m) hdl
        · rw [if_neg h2]
      set left := if 2 ≤ (l.take m).length then msortRange less (l.take m) else l.take m
      set right := if 2 ≤ (l.drop m).length then msortRange less (l.drop m) else l.drop m
      have hfinal : left ++ right ~ l :=
        ((hleft.append hright).trans (by rw [List.take_append_drop]))
      by_cases hcond : (!left.isEmpty && !right.isEmpty) = true
      · rw [if_pos hcond]
        exact (mergeRange_perm less left right).trans hfinal
      · rw [if_neg hcond]
        exact hfinal

theorem mergeSort_perm (less : α → α → Bool) (l : List α) :
    mergeSort less l ~ l := by
  unfold mergeSort
  by_cases h2 : l.length < 2
  · rw [if_pos h2]
  · rw [if_neg h2]
    by_cases h8 : l.length ≤ 8
    · rw [if_pos h8]
      exact insertionSortRange_perm less l
    · rw [if_neg h8]
      exact msortRange_perm less l.length l (by omega)

end CyclicList

namespace CyclicList

open List

/-! ## C1: a reference stable merge

`stdMerge` is the textbook stable merge of two runs (taking from the left run
on ties); it is used as a stepping stone: the run-based `mergeLoop` of the
source is proved equal to it on sorted inputs. -/

def stdMerge (lt : α → α → Bool) : List α → List α → List α
  | [], r => r
  | a :: l, [] => a :: l
  | a :: l, b :: r =>
    if lt b a then b :: stdMerge lt (a :: l) r else a :: stdMerge lt l (b :: r)
termination_by l r => l.length + r.length

theorem stdMerge_nil_left (lt : α → α → Bool) (r : List α) :
    stdMerge lt [] r = r := by
  cases r <;> rw [stdMerge]

theorem stdMerge_nil_right (lt : α → α → Bool) (l : List α) :
    stdMerge lt l [] = l := by
  cases l with
  | nil => rw [stdMerge]
  | cons a l' => rw [stdMerge]

theorem stdMerge_cons_cons (lt : α → α → Bool) (a b : α) (l r : List α) :
    stdMerge lt (a :: l) (b :: r) =
      if lt b a then b :: stdMerge lt (a :: l) r else a :: stdMerge lt l (b :: r) := by
  rw [stdMerge]

theorem stdMerge_perm (lt : α → α → Bool) :
    ∀ (n : ℕ) (l r : List α), l.length + r.length ≤ n →
      stdMerge lt l r ~ l ++ r := by
  intro n
  induction n with
  | zero =>
    intro l r hn
    have hl : l = [] := List.length_eq_zero.mp (by omega)
    have hr : r = [] := List.length_eq_zero.mp (by omega)
    subst hl
    subst hr
    rw [stdMerge_nil_left]
    rfl
  | succ n ih =>
    intro l r hn
    cases l with
    | nil =>
      rw [stdMerge_nil_left]
      rfl
    | cons a l' =>
      cases r with
      | nil =>
        rw [stdMerge_nil_right, List.append_nil]
      | cons b r' =>
        rw [stdMerge_cons_cons]
        simp only [List.length_cons] at hn
        by_cases h : lt b a
        · rw [if_pos h]
          refine ((ih (a :: l') r' (by simp only [List.length_cons]; omega)).cons b).trans ?_
          exact List.perm_middle.symm
        · rw [if_neg h]
          exact (ih l' (b :: r') (by simp only [List.length_cons]; omega)).cons a

theorem mem_stdMerge (lt : α → α → Bool) (l r : List α) (e : α) :
    e ∈ stdMerge lt l r ↔ e ∈ l ∨ e ∈ r := by
  rw [(stdMerge_perm lt (l.length + r.length) l r (by omega)).mem_iff]
  exact List.mem_append

/-- Left elements not greater than the head of the right run are emitted
first by `stdMerge`. -/
theorem stdMerge_chunk_left (lt : α → α → Bool) (x : α) (r : List α) :
    ∀ (A L : List α), (∀ e ∈ A, lt x e = false) →
      stdMerge lt (A ++ L) (x :: r) = A ++ stdMerge lt L (x :: r) := by
  intro A
  induction A with
  | nil =>
    intro L _
    simp
  | cons a A' ih =>
    intro L hA
    rw [List.cons_append, stdMerge_cons_cons,
      if_neg (by rw [hA a (List.mem_cons_self a A')]; simp)]
    rw [ih L fun e he => hA e (List.mem_cons_of_mem a he)]
    rfl

/-- If no left element is greater than the head of the right run, the whole
left run is emitted first. -/
theorem stdMerge_all_left (lt : α → α → Bool) (x : α) (r : List α) (L : List α)
    (hL : ∀ e ∈ L, lt x e = false) :
    stdMerge lt L (x :: r) = L ++ x :: r := by
  have h := stdMerge_chunk_left lt x r L [] (by simpa using hL)
  rw [List.append_nil] at h
  rw [h, stdMerge_nil_left]

/-- Right elements less than the head of the left run are emitted first. -/
theorem stdMerge_chunk_right (lt : α → α → Bool) (s : α) (B : List α) :
    ∀ (C D : List α), (∀ e ∈ C, lt e s = true) →
      stdMerge lt (s :: B) (C ++ D) = C ++ stdMerge lt (s :: B) D := by
  intro C
  induction C with
  | nil =>
    intro D _
    simp
  | cons c C' ih =>
    intro D hC
    rw [List.cons_append, stdMerge_cons_cons, if_pos (hC c (List.mem_cons_self c C'))]
    rw [ih D fun e he => hC e (List.mem_cons_of_mem c he)]
    rfl

/-! ## C1: the `merged` scan -/

theorem findInsert_none (less : α → α → Bool) (x : α) :
    ∀ (l : List α), findInsert less x l = none → ∀ e ∈ l, less x e = false := by
  intro l
  induction l with
  | nil =>
    intro _ e he
    simp at he
  | cons s rest ih =>
    intro h e he
    rw [findInsert] at h
    by_cases hs : less x s
    · rw [if_pos hs] at h
      exact absurd h (by simp)
    · rw [if_neg hs] at h
      rcases List.mem_cons.mp he with he1 | he2
      · subst he1
        simpa using hs
      · refine ih ?_ e he2
        cases hfi : findInsert less x rest with
        | none => rfl
        | some p =>
          rw [hfi] at h
          exact absurd h (by simp)

theorem findInsert_some (less : α → α → Bool) (x : α) :
    ∀ (l : List α) (dj : ℕ) (s : α), findInsert less x l = some (dj, s) →
      dj < l.length ∧ l[dj]? = some s ∧ (∀ e ∈ l.take dj, less x e = false) ∧
        less x s = true := by
  intro l
  induction l with
  | nil =>
    intro dj s h
    exact absurd h (by rw [findInsert]; simp)
  | cons a rest ih =>
    intro dj s h
    rw [findInsert] at h
    by_cases ha : less x a
    · rw [if_pos ha] at h
      simp only [Option.some.injEq, Prod.mk.injEq] at h
      obtain ⟨h1, h2⟩ := h
      subst h1
      subst h2
      refine ⟨by simp, by simp, ?_, ha⟩
      intro e he
      simp at he
    · rw [if_neg ha] at h
      cases hfi : findInsert less x rest with
      | none =>
        rw [hfi] at h
        exact absurd h (by simp)
      | some p =>
        obtain ⟨dj', s'⟩ := p
        rw [hfi] at h
        simp only [Option.map_some', Option.some.injEq, Prod.mk.injEq] at h
        obtain ⟨h1, h2⟩ := h
        subst h2
        obtain ⟨hd1, hd2, hd3, hd4⟩ := ih dj' s' hfi
        refine ⟨by simp only [List.length_cons]; omega, ?_, ?_, hd4⟩
        · rw [← h1]
          simpa using hd2
        · intro e he
          rw [← h1] at he
          rw [List.take_succ_cons] at he
          rcases List.mem_cons.mp he with he1 | he2
          · subst he1
            simpa using ha
          · exact hd3 e he2

end CyclicList

namespace CyclicList

open List

/-! ## C1: the run-based merge agrees with the reference merge -/

theorem pairwise_rel_getLast {R : α → α → Prop} :
    ∀ (l : List α) (b : α), l.Pairwise R → l.getLast? = some b →
      ∀ e ∈ l, R e b ∨ e = b := by
  intro l
  induction l with
  | nil =>
    intro b _ hb
    simp at hb
  | cons a t ih =>
    intro b hp hb e he
    cases t with
    | nil =>
      have hab : a = b := by simpa using hb
      have hea : e = a := by simpa using he
      right
      rw [hea, hab]
    | cons c t' =>
      rw [List.getLast?_cons_cons] at hb
      rcases List.mem_cons.mp he with he1 | he2
      · left
        subst he1
        have hbmem : b ∈ c :: t' := List.mem_of_mem_getLast? hb
        exact (List.pairwise_cons.mp hp).1 b hbmem
      · exact ih b (List.pairwise_cons.mp hp).2 hb e he2

theorem getLast?_append_ne_nil (l l' : List α) (h : l' ≠ []) :
    (l ++ l').getLast? = l'.getLast? := by
  rw [List.getLast?_append]
  cases hl' : l'.getLast? with
  | none => exact absurd (List.getLast?_eq_none_iff.mp hl') h
  | some b => rfl

theorem all_lt_false_of_last {lt : α → α → Bool}
    (hletrans : ∀ a b c, lt b a = false → lt c b = false → lt c a = false)
    (l : List α) (mb x : α)
    (hp : l.Pairwise fun a b => lt b a = false)
    (hlast : l.getLast? = some mb) (hx : lt x mb = false) :
    ∀ e ∈ l, lt x e = false := by
  intro e he
  rcases pairwise_rel_getLast l mb hp hlast e he with h | rfl
  · exact hletrans e mb x h hx
  · exact hx

theorem mergeLoop_eq_stdMerge (lt : α → α → Bool)
    (hletrans : ∀ a b c, lt b a = false → lt c b = false → lt c a = false) :
    ∀ (n : ℕ) (right : List α), right.length ≤ n →
      ∀ (processed : List α) (pos : ℕ) (mb : α),
        pos < processed.length →
        (processed.drop pos).getLast? = some mb →
        (processed.drop pos).Pairwise (fun a b => lt b a = false) →
        right.Pairwise (fun a b => lt b a = false) →
        mergeLoop lt mb processed pos right =
          processed.take pos ++ stdMerge lt (processed.drop pos) right := by
  intro n
  induction n with
  | zero =>
    intro right hn processed pos mb hpos hlast hps hrs
    have : right = [] := List.length_eq_zero.mp (by omega)
    subst this
    rw [mergeLoop, stdMerge_nil_right, List.take_append_drop]
  | succ n ih =>
    intro right hn processed pos mb hpos hlast hps hrs
    cases right with
    | nil => rw [mergeLoop, stdMerge_nil_right, List.take_append_drop]
    | cons x rs =>
      rw [mergeLoop]
      by_cases hxmb : lt x mb
      · rw [if_pos hxmb]
        cases hfi : findInsert lt x (processed.drop pos) with
        | none =>
          have hall := findInsert_none lt x _ hfi
          rw [stdMerge_all_left lt x rs _ hall, ← List.append_assoc,
            List.take_append_drop]
        | some p =>
          obtain ⟨dj, s⟩ := p
          simp only
          obtain ⟨hdj, hget, hA, hxs⟩ := findInsert_some lt x _ dj s hfi
          have hsein : (processed.drop pos)[dj] = s := by
            have h1 := List.getElem?_eq_getElem hdj
            rw [hget] at h1
            exact (Option.some_inj.mp h1).symm
          have hsplit : processed.drop pos =
              (processed.drop pos).take dj ++ s :: (processed.drop pos).drop (dj + 1) := by
            conv_lhs => rw [← List.take_append_drop dj (processed.drop pos)]
            rw [List.drop_eq_getElem_cons hdj, hsein]
          have hjlt : pos + dj < processed.length := by
            rw [List.length_drop] at hdj
            omega
          have htakej : processed.take (pos + dj) =
              processed.take pos ++ (processed.drop pos).take dj :=
            List.take_add processed pos dj
          have hdropj : processed.drop (pos + dj) =
              s :: (processed.drop pos).drop (dj + 1) := by
            rw [← List.drop_drop, List.drop_eq_getElem_cons hdj, hsein]
          have hC : ∀ y ∈ rs.takeWhile (fun e => lt e s), lt y s = true :=
            fun y hy => @List.mem_takeWhile_imp _ (fun e => lt e s) rs y hy
          have hD : (rs.dropWhile (fun e => lt e s)).length ≤ n := by
            have h1 : (rs.dropWhile (fun e => lt e s)).length ≤ rs.length :=
              List.Sublist.length_le (List.dropWhile_sublist _)
            simp only [List.length_cons] at hn
            omega
          have hproc' : processed.take (pos + dj) ++
                (x :: rs.takeWhile (fun e => lt e s)) ++ processed.drop (pos + dj) =
              (processed.take (pos + dj) ++ (x :: rs.takeWhile (fun e => lt e s))) ++
                (s :: (processed.drop pos).drop (dj + 1)) := by
            rw [List.append_assoc, hdropj, List.append_assoc]
          have hlen' : (processed.take (pos + dj) ++
              (x :: rs.takeWhile (fun e => lt e s))).length =
              pos + dj + (x :: rs.takeWhile (fun e => lt e s)).length := by
            rw [List.length_append, List.length_take]
            omega
          -- the invariants at the new state
          have hdrop' : (processed.take (pos + dj) ++
                (x :: rs.takeWhile (fun e => lt e s)) ++ processed.drop (pos + dj)).drop
                  (pos + dj + (x :: rs.takeWhile (fun e => lt e s)).length) =
              s :: (processed.drop pos).drop (dj + 1) := by
            rw [hproc', ← hlen', List.drop_left]
          have htake' : (processed.take (pos + dj) ++
                (x :: rs.takeWhile (fun e => lt e s)) ++ processed.drop (pos + dj)).take
                  (pos + dj + (x :: rs.takeWhile (fun e => lt e s)).length) =
              processed.take (pos + dj) ++ (x :: rs.takeWhile (fun e => lt e s)) := by
            rw [hproc', ← hlen', List.take_left]
          have hlast' : (s :: (processed.drop pos).drop (dj + 1)).getLast? = some mb := by
            rw [← hlast]
            conv_rhs => rw [hsplit]
            rw [getLast?_append_ne_nil _ _ (by simp)]
          have hps' : (s :: (processed.drop pos).drop (dj + 1)).Pairwise
              (fun a b => lt b a = false) := by
            rw [← hdropj, ← List.drop_drop]
            exact hps.drop
          have hrs' : (rs.dropWhile (fun e => lt e s)).Pairwise
              (fun a b => lt b a = false) :=
            ((List.pairwise_cons.mp hrs).2).sublist (List.dropWhile_sublist _)
          have hpos' : pos + dj + (x :: rs.takeWhile (fun e => lt e s)).length <
              (processed.take (pos + dj) ++
                (x :: rs.takeWhile (fun e => lt e s)) ++ processed.drop (pos + dj)).length := by
            rw [hproc', List.length_append, hlen']
            simp only [List.length_cons]
            omega
          rw [ih (rs.dropWhile (fun e => lt e s)) hD _ _ mb hpos'
            (by rw [hdrop']; exact hlast') (by rw [hdrop']; exact hps') hrs']
          rw [htake', hdrop']
          -- now compute the reference merge on the right-hand side
          conv_rhs => rw [hsplit]
          rw [stdMerge_chunk_left lt x rs _ _ hA, stdMerge_cons_cons, if_pos hxs]
          conv_rhs => rw [show rs = rs.takeWhile (fun e => lt e s) ++
            rs.dropWhile (fun e => lt e s) from (List.takeWhile_append_dropWhile ..).symm]
          rw [stdMerge_chunk_right lt s _ _ _ hC]
          rw [htakej]
          simp only [List.append_assoc, List.cons_append]
      · rw [if_neg hxmb]
        have hall : ∀ e ∈ processed.drop pos, lt x e = false :=
          all_lt_false_of_last hletrans _ mb x hps hlast (by simpa using hxmb)
        rw [stdMerge_all_left lt x rs _ hall, ← List.append_assoc,
          List.take_append_drop]

theorem mergeRange_eq_stdMerge (lt : α → α → Bool)
    (hletrans : ∀ a b c, lt b a = false → lt c b = false → lt c a = false)
    (left right : List α)
    (hl : left.Pairwise fun a b => lt b a = false)
    (hr : right.Pairwise fun a b => lt b a = false) :
    mergeRange lt left right = stdMerge lt left right := by
  unfold mergeRange
  cases hlast : left.getLast? with
  | none =>
    rw [List.getLast?_eq_none_iff.mp hlast, stdMerge_nil_left]
    rfl
  | some mb =>
    have hne : left ≠ [] := by
      intro h
      rw [h] at hlast
      simp at hlast
    have hpos : 0 < left.length := List.length_pos.mpr hne
    have h := mergeLoop_eq_stdMerge lt hletrans right.length right (by omega)
      left 0 mb (by omega) (by simpa using hlast) (by simpa using hl) hr
    simpa using h

end CyclicList

namespace CyclicList

open List

/-! ## C1: sortedness and stability

Elements are tagged with their original index: the input is `l.enum` and the
comparator `lessP` compares values only.  The single relation `leP` captures
sortedness *and* stability at once: an output pairwise-ordered by `leP` has
non-decreasing values, and ties keep their original index order. -/

/-- The comparator used by the sort on `(originalIndex, value)` pairs:
compare by value only. -/
def lessP (less : α → α → Bool) : ℕ × α → ℕ × α → Bool := fun p q => less p.2 q.2

/-- Strict-weak-order "at most": either strictly less by value, or tied by
value and earlier in the original order. -/
def leP (less : α → α → Bool) (p q : ℕ × α) : Prop :=
  less p.2 q.2 = true ∨ (less p.2 q.2 = false ∧ less q.2 p.2 = false ∧ p.1 < q.1)

section Order

variable {less : α → α → Bool}

theorem lt_of_lt_of_le (hletrans : ∀ a b c, less b a = false → less c b = false → less c a = false)
    (a b c : α) (h1 : less a b = true) (h2 : less c b = false) :
    less a c = true := by
  by_contra h
  have h3 : less a c = false := by
    cases hac : less a c
    · rfl
    · exact absurd hac h
  have h4 := hletrans b c a h2 h3
  rw [h4] at h1
  exact absurd h1 (by simp)

theorem lt_of_le_of_lt (hletrans : ∀ a b c, less b a = false → less c b = false → less c a = false)
    (a b c : α) (h1 : less b a = false) (h2 : less b c = true) :
    less a c = true := by
  by_contra h
  have h3 : less a c = false := by
    cases hac : less a c
    · rfl
    · exact absurd hac h
  have h4 := hletrans c a b h3 h1
  rw [h4] at h2
  exact absurd h2 (by simp)

theorem leP_trans (hasymm : ∀ a b, less a b = true → less b a = false)
    (hletrans : ∀ a b c, less b a = false → less c b = false → less c a = false)
    (p q r : ℕ × α) (h1 : leP less p q) (h2 : leP less q r) :
    leP less p r := by
  rcases h1 with h1 | ⟨h1a, h1b, h1c⟩
  · rcases h2 with h2 | ⟨h2a, h2b, h2c⟩
    · exact Or.inl (lt_of_lt_of_le hletrans p.2 q.2 r.2 h1 (hasymm q.2 r.2 h2))
    · exact Or.inl (lt_of_lt_of_le hletrans p.2 q.2 r.2 h1 h2b)
  · rcases h2 with h2 | ⟨h2a, h2b, h2c⟩
    · exact Or.inl (lt_of_le_of_lt hletrans p.2 q.2 r.2 h1b h2)
    · exact Or.inr ⟨hletrans r.2 q.2 p.2 h2a h1a, hletrans p.2 q.2 r.2 h1b h2b,
        Nat.lt_trans h1c h2c⟩

theorem leP_to_leV (hasymm : ∀ a b, less a b = true → less b a = false)
    (p q : ℕ × α) (h : leP less p q) : less q.2 p.2 = false := by
  rcases h with h | ⟨_, h2, _⟩
  · exact hasymm p.2 q.2 h
  · exact h2

/-- If `q` is not less than `p` and `p` comes earlier, then `p ≤ q`. -/
theorem leP_of_not_lt (p q : ℕ × α) (h : less q.2 p.2 = false) (hidx : p.1 < q.1) :
    leP less p q := by
  cases hpq : less p.2 q.2
  · exact Or.inr ⟨hpq, h, hidx⟩
  · exact Or.inl hpq

theorem insort_pairwise (hasymm : ∀ a b, less a b = true → less b a = false)
    (hletrans : ∀ a b c, less b a = false → less c b = false → less c a = false)
    (x : ℕ × α) :
    ∀ (d : List (ℕ × α)), d.Pairwise (leP less) → (∀ p ∈ d, p.1 < x.1) →
      (insort (lessP less) x d).Pairwise (leP less) := by
  intro d
  induction d with
  | nil =>
    intro _ _
    simp [insort]
  | cons s ds ih =>
    intro hd hidx
    obtain ⟨hs, hds⟩ := List.pairwise_cons.mp hd
    rw [insort]
    by_cases hxs : lessP less x s
    · rw [if_pos hxs]
      refine List.pairwise_cons.mpr ⟨?_, hd⟩
      intro e he
      rcases List.mem_cons.mp he with rfl | he2
      · exact Or.inl hxs
      · exact leP_trans hasymm hletrans x s e (Or.inl hxs) (hs e he2)
    · rw [if_neg hxs]
      refine List.pairwise_cons.mpr ⟨?_, ?_⟩
      · intro e he
        rw [(insort_perm (lessP less) x ds).mem_iff] at he
        rcases List.mem_cons.mp he with rfl | he2
        · refine leP_of_not_lt s e ?_ (hidx s (List.mem_cons_self s ds))
          simpa [lessP] using hxs
        · exact hs e he2
      · exact ih hds fun p hp => hidx p (List.mem_cons_of_mem s hp)

theorem pairwise_append_last (hasymm : ∀ a b, less a b = true → less b a = false)
    (hletrans : ∀ a b c, less b a = false → less c b = false → less c a = false)
    (x b : ℕ × α) (done : List (ℕ × α))
    (hp : done.Pairwise (leP less)) (hlast : done.getLast? = some b)
    (hbx : leP less b x) : (done ++ [x]).Pairwise (leP less) := by
  rw [List.pairwise_append]
  refine ⟨hp, List.pairwise_singleton _ _, ?_⟩
  intro e he y hy
  rw [List.mem_singleton.mp hy]
  rcases pairwise_rel_getLast done b hp hlast e he with h | rfl
  · exact leP_trans hasymm hletrans e b x h hbx
  · exact hbx

theorem isortLoop_pairwise (hasymm : ∀ a b, less a b = true → less b a = false)
    (hletrans : ∀ a b c, less b a = false → less c b = false → less c a = false) :
    ∀ (rest done : List (ℕ × α)), done.Pairwise (leP less) →
      rest.Pairwise (fun p q => p.1 < q.1) →
      (∀ p ∈ done, ∀ q ∈ rest, p.1 < q.1) →
      (isortLoop (lessP less) done rest).Pairwise (leP less) := by
  intro rest
  induction rest with
  | nil =>
    intro done hdone _ _
    exact hdone
  | cons x rs ih =>
    intro done hdone hrest hcross
    obtain ⟨hxq, hrs⟩ := List.pairwise_cons.mp hrest
    have hidx : ∀ p ∈ done, p.1 < x.1 :=
      fun p hp => hcross p hp x (List.mem_cons_self x rs)
    have hinsort : (isortLoop (lessP less) (insort (lessP less) x done) rs).Pairwise
        (leP less) := by
      refine ih (insort (lessP less) x done)
        (insort_pairwise hasymm hletrans x done hdone hidx) hrs ?_
      intro p hp q hq
      rw [(insort_perm (lessP less) x done).mem_iff] at hp
      rcases List.mem_cons.mp hp with rfl | hp2
      · exact hxq q hq
      · exact hcross p hp2 q (List.mem_cons_of_mem x hq)
    rw [isortLoop]
    cases hlast : done.getLast? with
    | none => exact hinsort
    | some b =>
      show List.Pairwise (leP less) (if lessP less x b = true
        then isortLoop (lessP less) (insort (lessP less) x done) rs
        else isortLoop (lessP less) (done ++ [x]) rs)
      by_cases hxb : lessP less x b
      · rw [if_pos hxb]
        exact hinsort
      · rw [if_neg hxb]
        have hbdone : b ∈ done := List.mem_of_mem_getLast? hlast
        have hbx : leP less b x :=
          leP_of_not_lt b x (by simpa [lessP] using hxb) (hidx b hbdone)
        refine ih (done ++ [x])
          (pairwise_append_last hasymm hletrans x b done hdone hlast hbx) hrs ?_
        intro p hp q hq
        rcases List.mem_append.mp hp with hp1 | hp2
        · exact hcross p hp1 q (List.mem_cons_of_mem x hq)
        · rw [List.mem_singleton.mp hp2]
          exact hxq q hq

theorem insertionSortRange_pairwise (hasymm : ∀ a b, less a b = true → less b a = false)
    (hletrans : ∀ a b c, less b a = false → less c b = false → less c a = false)
    (l : List (ℕ × α))
    (hl : l.Pairwise fun p q => p.1 < q.1) :
    (insertionSortRange (lessP less) l).Pairwise (leP less) := by
  cases l with
  | nil => simp [insertionSortRange]
  | cons x xs =>
    obtain ⟨hx, hxs⟩ := List.pairwise_cons.mp hl
    exact isortLoop_pairwise hasymm hletrans xs [x] (List.pairwise_singleton _ _) hxs
      (by
        intro p hp q hq
        rw [List.mem_singleton.mp hp]
        exact hx q hq)

end Order

end CyclicList

namespace CyclicList

open List

section Merge

variable {less : α → α → Bool}

theorem stdMerge_pairwise (hasymm : ∀ a b, less a b = true → less b a = false)
    (hletrans : ∀ a b c, less b a = false → less c b = false → less c a = false) :
    ∀ (l r : List (ℕ × α)), l.Pairwise (leP less) → r.Pairwise (leP less) →
      (∀ a ∈ l, ∀ b ∈ r, a.1 < b.1) →
      (stdMerge (lessP less) l r).Pairwise (leP less) := by
  intro l
  induction l with
  | nil =>
    intro r _ hr _
    rw [stdMerge_nil_left]
    exact hr
  | cons a l' ihl =>
    intro r
    induction r with
    | nil =>
      intro hl _ _
      rw [stdMerge_nil_right]
      exact hl
    | cons b r' ihr =>
      intro hl hr hcross
      rw [stdMerge_cons_cons]
      by_cases hba : lessP less b a
      · rw [if_pos hba]
        refine List.pairwise_cons.mpr ⟨?_, ?_⟩
        · intro e he
          rw [mem_stdMerge] at he
          have hlepba : leP less b a := Or.inl hba
          rcases he with he | he
          · rcases List.mem_cons.mp he with rfl | he2
            · exact hlepba
            · exact leP_trans hasymm hletrans b a e hlepba
                ((List.pairwise_cons.mp hl).1 e he2)
          · exact (List.pairwise_cons.mp hr).1 e he
        · exact ihr hl (List.pairwise_cons.mp hr).2
            fun p hp q hq => hcross p hp q (List.mem_cons_of_mem b hq)
      · rw [if_neg hba]
        have hlepab : leP less a b := leP_of_not_lt a b (by simpa [lessP] using hba)
          (hcross a (List.mem_cons_self a l') b (List.mem_cons_self b r'))
        refine List.pairwise_cons.mpr ⟨?_, ?_⟩
        · intro e he
          rw [mem_stdMerge] at he
          rcases he with he | he
          · exact (List.pairwise_cons.mp hl).1 e he
          · rcases List.mem_cons.mp he with rfl | he2
            · exact hlepab
            · exact leP_trans hasymm hletrans a b e hlepab
                ((List.pairwise_cons.mp hr).1 e he2)
        · exact ihl (b :: r') (List.pairwise_cons.mp hl).2 hr
            fun p hp q hq => hcross p (List.mem_cons_of_mem a hp) q hq

theorem pairwise_of_length_le_one {β : Type u} {R : β → β → Prop} (l : List β)
    (h : l.length ≤ 1) : l.Pairwise R := by
  cases l with
  | nil => exact List.Pairwise.nil
  | cons a t =>
    cases t with
    | nil => exact List.pairwise_singleton R a
    | cons b t' => simp at h

theorem msortRange_pairwise (hasymm : ∀ a b, less a b = true → less b a = false)
    (hletrans : ∀ a b c, less b a = false → less c b = false → less c a = false) :
    ∀ (n : ℕ) (l : List (ℕ × α)), l.length ≤ n →
      l.Pairwise (fun p q => p.1 < q.1) →
      (msortRange (lessP less) l).Pairwise (leP less) := by
  intro n
  induction n with
  | zero =>
    intro l hn _
    have : l = [] := List.length_eq_zero.mp (by omega)
    subst this
    rw [msortRange]
    simp only [List.length_nil, Nat.zero_le, if_pos]
    exact insertionSortRange_pairwise hasymm hletrans [] List.Pairwise.nil
  | succ n ih =>
    intro l hn hidx
    rw [msortRange]
    by_cases h8 : l.length ≤ 8
    · rw [if_pos h8]
      exact insertionSortRange_pairwise hasymm hletrans l hidx
    · rw [if_neg h8]
      simp only
      set m := l.length / 2 with hm
      have htl : (l.take m).length ≤ n := by
        rw [List.length_take]
        omega
      have hdl : (l.drop m).length ≤ n := by
        rw [List.length_drop]
        omega
      have hidxt : (l.take m).Pairwise (fun p q => p.1 < q.1) :=
        hidx.sublist (List.take_sublist m l)
      have hidxd : (l.drop m).Pairwise (fun p q => p.1 < q.1) :=
        hidx.sublist (List.drop_sublist m l)
      have hsp : (l.take m ++ l.drop m).Pairwise (fun p q => p.1 < q.1) := by
        rw [List.take_append_drop]
        exact hidx
      have hcross0 : ∀ a ∈ l.take m, ∀ b ∈ l.drop m, a.1 < b.1 :=
        (List.pairwise_append.mp hsp).2.2
      have hpleft : (if 2 ≤ (l.take m).length then msortRange (lessP less) (l.take m)
          else l.take m).Pairwise (leP less) := by
        by_cases h2 : 2 ≤ (l.take m).length
        · rw [if_pos h2]
          exact ih (l.take m) htl hidxt
        · rw [if_neg h2]
          exact pairwise_of_length_le_one _ (by omega)
      have hpright : (if 2 ≤ (l.drop m).length then msortRange (lessP less) (l.drop m)
          else l.drop m).Pairwise (leP less) := by
        by_cases h2 : 2 ≤ (l.drop m).length
        · rw [if_pos h2]
          exact ih (l.drop m) hdl hidxd
        · rw [if_neg h2]
          exact pairwise_of_length_le_one _ (by omega)
      have hmemleft : ∀ p ∈ (if 2 ≤ (l.take m).length then
          msortRange (lessP less) (l.take m) else l.take m), p ∈ l.take m := by
        by_cases h2 : 2 ≤ (l.take m).length
        · rw [if_pos h2]
          intro p hp
          exact (msortRange_perm (lessP less) (l.take m).length (l.take m)
            le_rfl).mem_iff.mp hp
        · rw [if_neg h2]
          intro p hp
          exact hp
      have hmemright : ∀ p ∈ (if 2 ≤ (l.drop m).length then
          msortRange (lessP less) (l.drop m) else l.drop m), p ∈ l.drop m := by
        by_cases h2 : 2 ≤ (l.drop m).length
        · rw [if_pos h2]
          intro p hp
          exact (msortRange_perm (lessP less) (l.drop m).length (l.drop m)
            le_rfl).mem_iff.mp hp
        · rw [if_neg h2]
          intro p hp
          exact hp
      set left := if 2 ≤ (l.take m).length then msortRange (lessP less) (l.take m)
        else l.take m
      set right := if 2 ≤ (l.drop m).length then msortRange (lessP less) (l.drop m)
        else l.drop m
      have hcross' : ∀ a ∈ left, ∀ b ∈ right, a.1 < b.1 :=
        fun a ha b hb => hcross0 a (hmemleft a ha) b (hmemright b hb)
      by_cases hcond : (!left.isEmpty && !right.isEmpty) = true
      · rw [if_pos hcond]
        have hletransP : ∀ (a b c : ℕ × α), lessP less b a = false →
            lessP less c b = false → lessP less c a = false :=
          fun a b c h1 h2 => hletrans a.2 b.2 c.2 h1 h2
        rw [mergeRange_eq_stdMerge (lessP less) hletransP left right
          (hpleft.imp fun h => leP_to_leV hasymm _ _ h)
          (hpright.imp fun h => leP_to_leV hasymm _ _ h)]
        exact stdMerge_pairwise hasymm hletrans left right hpleft hpright hcross'
      · rw [if_neg hcond]
        simp only [Bool.and_eq_true, Bool.not_eq_true', not_and_or,
          Bool.not_eq_false] at hcond
        rcases hcond with hcond | hcond
        · rw [List.isEmpty_iff.mp hcond]
          simpa using hpright
        · rw [List.isEmpty_iff.mp hcond]
          rw [List.append_nil]
          exact hpleft

theorem mergeSort_pairwise (hasymm : ∀ a b, less a b = true → less b a = false)
    (hletrans : ∀ a b c, less b a = false → less c b = false → less c a = false)
    (l : List (ℕ × α)) (hidx : l.Pairwise fun p q => p.1 < q.1) :
    (mergeSort (lessP less) l).Pairwise (leP less) := by
  unfold mergeSort
  by_cases h2 : l.length < 2
  · rw [if_pos h2]
    exact pairwise_of_length_le_one l (by omega)
  · rw [if_neg h2]
    by_cases h8 : l.length ≤ 8
    · rw [if_pos h8]
      exact insertionSortRange_pairwise hasymm hletrans l hidx
    · rw [if_neg h8]
      exact msortRange_pairwise hasymm hletrans l.length l le_rfl hidx

end Merge

theorem enum_pairwise_fst (l : List α) :
    l.enum.Pairwise (fun p q : ℕ × α => p.1 < q.1) := by
  rw [List.pairwise_iff_getElem]
  intro i j hi hj hij
  rw [List.getElem_enum, List.getElem_enum]
  simpa using hij

/-- C1: for every finite list and every comparator defining a total order
(asymmetric, with transitive non-strict complement), `merge_sort` (called by
`sort()` / `sort_by`) rearranges the list into a permutation of its input
whose values are non-decreasing under the comparator, and elements that
compare as ties keep their original relative order (stability): working on
`(originalIndex, value)` pairs compared by value only, the output is a
permutation of the input that is pairwise ordered by `leP` — values
non-decreasing and, within ties, original indices increasing. -/
theorem spec_c1_sort_correct (less : α → α → Bool)
    (hasymm : ∀ a b, less a b = true → less b a = false)
    (hletrans : ∀ a b c, less b a = false → less c b = false → less c a = false)
    (l : List α) :
    mergeSort (lessP less) l.enum ~ l.enum ∧
    (mergeSort (lessP less) l.enum).map Prod.snd ~ l ∧
    (mergeSort (lessP less) l.enum).Pairwise (leP less) ∧
    (mergeSort (lessP less) l.enum).Chain' (fun p q => less q.2 p.2 = false) := by
  have hperm := mergeSort_perm (lessP less) l.enum
  have hpw := mergeSort_pairwise hasymm hletrans l.enum (enum_pairwise_fst l)
  refine ⟨hperm, ?_, hpw, ?_⟩
  · have h := hperm.map Prod.snd
    rw [List.enum_map_snd] at h
    exact h
  · exact (hpw.imp fun h => leP_to_leV hasymm _ _ h).chain'

/-- Witness for C1 at a concrete comparator (the strict order on `Bool`) and
a concrete list with ties. -/
theorem spec_c1_sort_correct_witness :
    (mergeSort (lessP fun a b : Bool => !a && b) [true, false, true, false].enum ~
      [true, false, true, false].enum) ∧
    ((mergeSort (lessP fun a b : Bool => !a && b) [true, false, true, false].enum).map
      Prod.snd ~ [true, false, true, false]) ∧
    (mergeSort (lessP fun a b : Bool => !a && b) [true, false, true, false].enum).Pairwise
      (leP fun a b : Bool => !a && b) ∧
    (mergeSort (lessP fun a b : Bool => !a && b) [true, false, true, false].enum).Chain'
      (fun p q : ℕ × Bool => (!q.2 && p.2) = false) :=
  spec_c1_sort_correct (fun a b => !a && b) (by decide) (by decide)
    [true, false, true, false]

end CyclicList
